import Mathlib

/-!
# Dynatrace Service Topology Exporter — verification development

A shallow embedding, in Lean 4, of the core logic of the
Dynatrace-Service-Topology-Exporter repository:

* `dynatrace_client.py` — the HTTP retry/backoff state machine
  (`DynatraceClient._execute_with_retry`), entity decoding
  (`ServiceEntity.from_api_response`) and batch fetching
  (`DynatraceClient.fetch_services_by_ids`);
* `topology_exporter.py` — the BFS traversal (`TopologyExporter._bfs_traverse`),
  edge materialization (`_build_edges`), dataframe creation
  (`_create_dataframe`) and the run wrapper (`TopologyExporter.run`);
* `dynatrace_service_topology.py` — the flat full-scan variant
  (`TopologyExtractor._add_edge`, `extract_relationships`,
  `build_id_to_name_map`) and CSV export ordering (`write_csv`).

Modelling conventions:

* The HTTP backend is abstracted as a function from the attempt index to an
  HTTP response (status, raw text, decoded body).  Transport-level exceptions
  (connection errors, timeouts, TLS failures) of the Python code are outside
  this embedding: every attempt yields an HTTP status, which is all the
  claims under study exercise.
* Backoff durations are rationals.  Python floats double exactly and the
  `min` with the cap is exact for every value reachable from the defaults,
  so ℚ is a faithful carrier for the backoff arithmetic of the source.
* Python dicts are modelled as insertion-ordered association lists
  (assignment replaces in place, new keys append), matching CPython's
  guaranteed iteration order.  Python sets are modelled as lists without
  duplicates (`insert if absent`); the claims under study only observe
  membership, cardinality, and sorted projections of these sets.
* The BFS while-loop is given explicit fuel; running out of fuel is a
  distinguished outcome (`fuelOut`) that never occurs for the runs the
  claims quantify over.
-/

/-! ## Entity model (`dynatrace_client.py`, `ServiceEntity`) -/

/-- A raw relationship object, an element of `fromRelationships.calls` or
`toRelationships.called_by` in an API response. -/
structure RawRelation where
  id : String
  type : String
deriving DecidableEq, Repr

/-- A raw entity payload, the JSON object for one service as returned by the
`/entities` endpoint. `properties` is the key/value property map; absent keys
default to the empty string at decode time. -/
structure RawEntity where
  entityId : String
  displayName : String
  properties : List (String × String)
  calls : List RawRelation
  called_by : List RawRelation
deriving DecidableEq, Repr

/-- `properties.get(key, "")` — dictionary lookup with empty-string default. -/
def propGet (props : List (String × String)) (key : String) : String :=
  match props.find? (fun p => p.1 == key) with
  | some p => p.2
  | none => ""

/-- `ServiceEntity` (dynatrace_client.py): the canonical decoded service
record used by the BFS exporter. -/
structure ServiceEntity where
  entity_id : String
  display_name : String
  process_group : String
  web_application_id : String
  web_server_name : String
  remote_endpoint : String
  service_type : String
  calls : List String
deriving DecidableEq, Repr

/-- `ServiceEntity.from_api_response`: decode a raw entity, keeping only
SERVICE-typed targets with a non-empty id from `fromRelationships.calls`. -/
def from_api_response (e : RawEntity) : ServiceEntity :=
  { entity_id := e.entityId
    display_name := e.displayName
    process_group := propGet e.properties "processGroup"
    web_application_id := propGet e.properties "webApplicationId"
    web_server_name := propGet e.properties "webServerName"
    remote_endpoint := propGet e.properties "remoteEndpoint"
    service_type := propGet e.properties "serviceType"
    calls := (e.calls.filter (fun r => r.id != "" && r.type == "SERVICE")).map RawRelation.id }

/-! ## Retry/backoff state machine (`DynatraceClient._execute_with_retry`) -/

/-- `DynatraceAPIError`: carries the HTTP status code (0 for non-HTTP
failures such as cancellation) and a message. `str(e)` in Python renders as
"HTTP {status}: {message}". -/
structure DTError where
  status_code : Nat
  message : String
deriving DecidableEq, Repr

/-- One HTTP response: status code, raw text (used in error messages) and the
decoded JSON body of type β (returned on 200). -/
structure HttpResponse (β : Type) where
  status : Nat
  text : String
  body : β
deriving DecidableEq

instance {ε α : Type} [DecidableEq ε] [DecidableEq α] : DecidableEq (Except ε α)
  | .ok a, .ok b =>
    if h : a = b then .isTrue (by rw [h]) else .isFalse (by simp [h])
  | .ok _, .error _ => .isFalse (by simp)
  | .error _, .ok _ => .isFalse (by simp)
  | .error a, .error b =>
    if h : a = b then .isTrue (by rw [h]) else .isFalse (by simp [h])

/-- Observable trace of one `_execute_with_retry` call: how many HTTP GETs
were issued, how many times the cancellation callback was invoked, the
backoff sleeps (in order), and the final outcome. -/
structure RetryTrace (β : Type) where
  attempts : Nat
  checks : Nat
  sleeps : List ℚ
  outcome : Except DTError β
deriving DecidableEq, Repr

/-- The 4xx error message: `response.text[:500] if response.text else "No
error details"`. -/
def clientErrorText (text : String) : String :=
  if text == "" then "No error details" else text.take 500

/-- The body of `_execute_with_retry`'s while-loop.  `fuel` is
`max_retries - retries`; the source raises the exhaustion error when a
retryable status arrives with `retries + 1 > max_retries`, i.e. when
`fuel = 0`.  (The loop condition `retries <= max_retries` is always true when
reached, so the trailing "Unexpected retry loop exit" raise is dead code.)
`respond n` is the backend's answer to the n-th HTTP attempt; `cc` is the
optional cancellation callback, polled before every attempt. -/
def retry_loop {β : Type} (maxB : ℚ) (respond : Nat → HttpResponse β)
    (cc : Option (Nat → Bool)) :
    Nat → Nat → ℚ → Nat → List ℚ → RetryTrace β
  | fuel, attempt, backoff, checks, sleeps =>
    let checks' := match cc with
      | some _ => checks + 1
      | none => checks
    if (match cc with | some f => f attempt | none => false) then
      ⟨attempt, checks', sleeps, .error ⟨0, "Operation cancelled by user"⟩⟩
    else
      let r := respond attempt
      if r.status == 200 then
        ⟨attempt + 1, checks', sleeps, .ok r.body⟩
      else if r.status == 429 then
        match fuel with
        | 0 =>
          ⟨attempt + 1, checks', sleeps,
            .error ⟨429, "Rate limit exceeded after maximum retries"⟩⟩
        | fuel' + 1 =>
          retry_loop maxB respond cc fuel' (attempt + 1) (min (backoff * 2) maxB)
            checks' (sleeps ++ [backoff])
      else if 500 ≤ r.status then
        match fuel with
        | 0 =>
          ⟨attempt + 1, checks', sleeps,
            .error ⟨r.status, "Server error after maximum retries: " ++ r.text.take 300⟩⟩
        | fuel' + 1 =>
          retry_loop maxB respond cc fuel' (attempt + 1) (min (backoff * 2) maxB)
            checks' (sleeps ++ [backoff])
      else
        ⟨attempt + 1, checks', sleeps, .error ⟨r.status, clientErrorText r.text⟩⟩

/-- `DynatraceClient._execute_with_retry`: starts with `retries = 0` and
`backoff = initial_backoff`. -/
def execute_with_retry {β : Type} (max_retries : Nat) (initial_backoff maxB : ℚ)
    (respond : Nat → HttpResponse β) (cc : Option (Nat → Bool)) : RetryTrace β :=
  retry_loop maxB respond cc max_retries 0 initial_backoff 0 []

/-- The backoff sequence actually slept when `j` retryable responses arrive
in a row starting from backoff value `b`: the source sleeps the current
backoff and only then doubles-and-caps it. -/
def backoffSeq (b maxB : ℚ) : Nat → List ℚ
  | 0 => []
  | j + 1 => b :: backoffSeq (min (b * 2) maxB) maxB j

/-- `DynatraceClient.fetch_services_by_ids`: empty input short-circuits to an
empty list before any HTTP or cancellation machinery runs; otherwise one
retried request is issued and each returned raw entity is decoded. -/
def fetch_services_by_ids (max_retries : Nat) (initial_backoff maxB : ℚ)
    (respond : Nat → HttpResponse (List RawEntity)) (cc : Option (Nat → Bool))
    (entity_ids : List String) : RetryTrace (List ServiceEntity) :=
  if entity_ids.isEmpty then ⟨0, 0, [], .ok []⟩
  else
    let t := execute_with_retry max_retries initial_backoff maxB respond cc
    ⟨t.attempts, t.checks, t.sleeps, t.outcome.map (fun es => es.map from_api_response)⟩

/-! ### Retry lemmas -/

/-- If the backend answers 429 on every attempt, the loop issues exactly
`fuel + 1` further attempts, sleeps `fuel` times, and exhausts. -/
theorem retry_loop_all_429 {β : Type} (maxB : ℚ) (respond : Nat → HttpResponse β)
    (h : ∀ n, (respond n).status = 429) :
    ∀ (fuel attempt : Nat) (backoff : ℚ) (checks : Nat) (sleeps : List ℚ),
      retry_loop maxB respond none fuel attempt backoff checks sleeps =
        ⟨attempt + fuel + 1, checks, sleeps ++ backoffSeq backoff maxB fuel,
          .error ⟨429, "Rate limit exceeded after maximum retries"⟩⟩ := by
  intro fuel
  induction fuel with
  | zero =>
    intro attempt backoff checks sleeps
    simp [retry_loop, h attempt, backoffSeq]
  | succ fuel ih =>
    intro attempt backoff checks sleeps
    rw [retry_loop]
    simp only [h attempt]
    rw [ih (attempt + 1) (min (backoff * 2) maxB) checks (sleeps ++ [backoff])]
    simp [backoffSeq]
    omega

/-- If the backend answers 429 on the first `j ≤ fuel` attempts and 200 on the
next one, the loop succeeds with the 200 body after `j + 1` further attempts,
having slept the backoff sequence of length `j`. -/
theorem retry_loop_429_then_ok {β : Type} (maxB : ℚ) (respond : Nat → HttpResponse β) :
    ∀ (j fuel attempt : Nat) (backoff : ℚ) (checks : Nat) (sleeps : List ℚ),
      j ≤ fuel →
      (∀ i, i < j → (respond (attempt + i)).status = 429) →
      (respond (attempt + j)).status = 200 →
      retry_loop maxB respond none fuel attempt backoff checks sleeps =
        ⟨attempt + j + 1, checks, sleeps ++ backoffSeq backoff maxB j,
          .ok (respond (attempt + j)).body⟩ := by
  intro j
  induction j with
  | zero =>
    intro fuel attempt backoff checks sleeps _ _ h200
    simp only [Nat.add_zero] at h200
    cases fuel <;> simp [retry_loop, h200, backoffSeq]
  | succ j ih =>
    intro fuel attempt backoff checks sleeps hle h429 h200
    obtain ⟨fuel', rfl⟩ : ∃ f, fuel = f + 1 := ⟨fuel - 1, by omega⟩
    rw [retry_loop]
    have h0 : (respond (attempt + 0)).status = 429 := h429 0 (by omega)
    simp only [Nat.add_zero] at h0
    simp only [h0]
    have hrec := ih fuel' (attempt + 1) (min (backoff * 2) maxB) checks (sleeps ++ [backoff])
      (by omega)
      (fun i hi => by
        have := h429 (i + 1) (by omega)
        simpa [Nat.add_assoc, Nat.add_comm 1 i] using this)
      (by
        have : attempt + 1 + j = attempt + (j + 1) := by omega
        rw [this]; exact h200)
    rw [hrec]
    have harr : attempt + 1 + j = attempt + (j + 1) := by omega
    simp [backoffSeq, harr]

/-- With `0 ≤ b ≤ maxB`, the slept sequence is exactly
`min (b * 2 ^ k) maxB` for `k = 0, 1, ...` — the doubling caps at `maxB`. -/
theorem backoffSeq_eq_min_pow (maxB : ℚ) :
    ∀ (j : Nat) (b : ℚ), 0 ≤ b → b ≤ maxB →
      backoffSeq b maxB j = (List.range j).map (fun k => min (b * 2 ^ k) maxB) := by
  intro j
  induction j with
  | zero => intro b _ _; simp [backoffSeq]
  | succ j ih =>
    intro b hb hbM
    have hM : (0 : ℚ) ≤ maxB := le_trans hb hbM
    rw [backoffSeq, List.range_succ_eq_map, List.map_cons]
    have hhead : min (b * 2 ^ 0) maxB = b := by simp [min_eq_left hbM]
    rw [hhead]
    congr 1
    rw [ih (min (b * 2) maxB) (le_min (by linarith) hM) (min_le_right _ _)]
    rw [List.map_map]
    apply List.map_congr_left
    intro k _
    show min (min (b * 2) maxB * 2 ^ k) maxB = min (b * 2 ^ (k + 1)) maxB
    have hpow : (0 : ℚ) ≤ 2 ^ k := by positivity
    rw [min_mul_of_nonneg _ _ hpow]
    have h1 : maxB ≤ maxB * 2 ^ k := by
      nth_rewrite 1 [show maxB = maxB * 1 by ring]
      apply mul_le_mul_of_nonneg_left _ hM
      exact one_le_pow₀ (by norm_num)
    rw [min_assoc, min_eq_right h1]
    ring_nf

/-! ## BFS traversal (`TopologyExporter._bfs_traverse`) -/

/-- The result of one `fetch_services_by_ids` call as seen by the BFS loop:
either a decoded service list or a raised `DynatraceAPIError` (which the loop
catches).  The environment maps the loop-iteration index and the requested
batch ids to the backend's answer. -/
inductive FetchResult where
  | ok (services : List ServiceEntity)
  | err (status_code : Nat) (message : String)
deriving DecidableEq, Repr

/-- The mutable state of a `TopologyExporter` run.  `queue`, `visited` and
`services` mirror `self._queue`, `self._visited` and `self._services`.
`maxDepth` mirrors the local `max_depth`.  The remaining fields are
observation ghosts: `iter` counts loop iterations, `fetched` records each
attempted batch (with its iteration index), and `log` records every enqueue
event `(entity_id, depth)` in order — the roots seeded at depth 0 and each
call target enqueued at its parent's depth + 1. -/
structure BfsState where
  queue : List (String × Nat)
  visited : List String
  services : List (String × ServiceEntity)
  maxDepth : Nat
  iter : Nat
  fetched : List (Nat × List String)
  log : List (String × Nat)
deriving DecidableEq, Repr

/-- The empty state after `_reset`. -/
def initState : BfsState :=
  { queue := [], visited := [], services := [], maxDepth := 0, iter := 0,
    fetched := [], log := [] }

/-- Seeding loop of `_bfs_traverse`: each truthy, unvisited root id is
enqueued at depth 0 and marked visited. -/
def seed_state (root_ids : List String) : BfsState :=
  root_ids.foldl
    (fun s rid =>
      if rid != "" && !(s.visited.contains rid) then
        { s with queue := s.queue ++ [(rid, 0)], visited := s.visited ++ [rid],
                 log := s.log ++ [(rid, 0)] }
      else s)
    initState

/-- The `service_depth` lookup: scan the batch for the first entry whose id
equals the returned entity's id; default 0 when absent. -/
def lookup_depth (batch : List (String × Nat)) (eid : String) : Nat :=
  match batch.find? (fun b => b.1 == eid) with
  | some b => b.2
  | none => 0

/-- Processing one outgoing-call target: enqueue at the given depth and mark
visited, unless already visited. -/
def enqueue_target (depth : Nat) (s : BfsState) (target_id : String) : BfsState :=
  if s.visited.contains target_id then s
  else
    { s with visited := s.visited ++ [target_id],
             queue := s.queue ++ [(target_id, depth)],
             log := s.log ++ [(target_id, depth)] }

/-- `self._services[service.entity_id] = service` — dict assignment:
replace in place if the key exists, else append. -/
def upsert_service (m : List (String × ServiceEntity)) (sv : ServiceEntity) :
    List (String × ServiceEntity) :=
  if m.any (fun p => p.1 == sv.entity_id) then
    m.map (fun p => if p.1 == sv.entity_id then (p.1, sv) else p)
  else m ++ [(sv.entity_id, sv)]

/-- Processing one returned service: record it in the services dict, look up
its batch depth, and enqueue its unvisited call targets at depth + 1. -/
def process_service (batch : List (String × Nat)) (s : BfsState)
    (sv : ServiceEntity) : BfsState :=
  let s1 := { s with services := upsert_service s.services sv }
  let d := lookup_depth batch sv.entity_id
  sv.calls.foldl (enqueue_target (d + 1)) s1

/-- How a BFS run ended: the queue drained (`completed`, carrying the
returned `max_depth`), the cancellation check at the top of the loop raised
(`cancelled`), or the embedding's fuel ran out (`fuelOut`, an artifact that
never occurs in the runs the claims quantify over). -/
inductive BfsOutcome where
  | completed (maxDepth : Nat)
  | cancelled
  | fuelOut
deriving DecidableEq, Repr

/-- One iteration body of the `_bfs_traverse` while-loop (after the
cancellation check, which lives in `bfs_loop`): pop up to `batchSize`
entries, record the batch max depth, attempt the batch fetch — recorded in
`fetched` whether or not it succeeds — and on success process each returned
service in order.  A raised `DynatraceAPIError` from the fetch — cancellation
included — is caught, logged and skipped (`continue`), leaving the state
otherwise unchanged. -/
def bfs_step (batchSize : Nat) (env : Nat → List String → FetchResult)
    (s : BfsState) : BfsState :=
  let batch := s.queue.take batchSize
  let rest := s.queue.drop batchSize
  let batchIds := batch.map Prod.fst
  let dmax := (batch.map Prod.snd).foldl max 0
  let s1 := { s with queue := rest, maxDepth := max s.maxDepth dmax,
                     fetched := s.fetched ++ [(s.iter, batchIds)] }
  match env s.iter batchIds with
  | .err _ _ => { s1 with iter := s1.iter + 1 }
  | .ok svs => { svs.foldl (process_service batch) s1 with iter := s1.iter + 1 }

/-- The while-loop of `_bfs_traverse`.  Each iteration: exit when the queue
is drained; otherwise check the cancellation flag (raising
`DynatraceAPIError(0, "Export cancelled by user")` when set), then run the
batch body.  The `batch.isEmpty` guard mirrors the defensive
`if not batch: break` of the source (reachable only with `batchSize = 0`). -/
def bfs_loop (batchSize : Nat) (env : Nat → List String → FetchResult)
    (cancel : Nat → Bool) : Nat → BfsState → BfsState × BfsOutcome
  | fuel + 1, s =>
    if s.queue.isEmpty then (s, .completed s.maxDepth)
    else if cancel s.iter then (s, .cancelled)
    else if (s.queue.take batchSize).isEmpty then (s, .completed s.maxDepth)
    else bfs_loop batchSize env cancel fuel (bfs_step batchSize env s)
  | 0, s =>
    if s.queue.isEmpty then (s, .completed s.maxDepth) else (s, .fuelOut)

/-- `_bfs_traverse`: seed the queue from the root ids, then run the loop. -/
def bfs_traverse (batchSize : Nat) (env : Nat → List String → FetchResult)
    (cancel : Nat → Bool) (fuel : Nat) (root_ids : List String) :
    BfsState × BfsOutcome :=
  bfs_loop batchSize env cancel fuel (seed_state root_ids)

/-! ## Edge materialization (`TopologyExporter._build_edges`) -/

/-- `EdgeRecord` (topology_exporter.py): one row of the flat export model. -/
structure EdgeRecord where
  source_id : String
  source_name : String
  source_pg : String
  source_web_app_id : String
  source_remote_name : String
  source_web_server : String
  relation : String
  target_id : String
  target_name : String
  target_pg : String
  target_web_app_id : String
  target_remote_name : String
  target_web_server : String
deriving DecidableEq, Repr

/-- `self._services.get(target_id)` — dict lookup. -/
def lookup_service (m : List (String × ServiceEntity)) (eid : String) :
    Option ServiceEntity :=
  (m.find? (fun p => p.1 == eid)).map Prod.snd

/-- Construct the `EdgeRecord` for one CALLS relationship; target fields fall
back to "UNKNOWN"/"" when the target was never discovered. -/
def mk_edge (sv : ServiceEntity) (target_id : String) (tgt : Option ServiceEntity) :
    EdgeRecord :=
  { source_id := sv.entity_id
    source_name := sv.display_name
    source_pg := sv.process_group
    source_web_app_id := sv.web_application_id
    source_remote_name := sv.remote_endpoint
    source_web_server := sv.web_server_name
    relation := "CALLS"
    target_id := target_id
    target_name := match tgt with | some t => t.display_name | none => "UNKNOWN"
    target_pg := match tgt with | some t => t.process_group | none => ""
    target_web_app_id := match tgt with | some t => t.web_application_id | none => ""
    target_remote_name := match tgt with | some t => t.remote_endpoint | none => ""
    target_web_server := match tgt with | some t => t.web_server_name | none => "" }

/-- `_build_edges`: for every discovered service (in dict order) and every
entry of its `calls` list (in order), append one `EdgeRecord`.  No
deduplication is performed here. -/
def build_edges (services : List (String × ServiceEntity)) : List EdgeRecord :=
  services.foldl
    (fun acc p =>
      acc ++ p.2.calls.map (fun tid => mk_edge p.2 tid (lookup_service services tid)))
    []

/-- `EdgeRecord.to_dict`: the ordered column/value row for the dataframe. -/
def EdgeRecord.to_row (e : EdgeRecord) : List (String × String) :=
  [("Source_ID", e.source_id), ("Source_Name", e.source_name),
   ("Source_PG", e.source_pg), ("Source_WebAppID", e.source_web_app_id),
   ("Source_RemoteName", e.source_remote_name),
   ("Source_WebServer", e.source_web_server), ("RELATION", e.relation),
   ("Target_ID", e.target_id), ("Target_Name", e.target_name),
   ("Target_PG", e.target_pg), ("Target_WebAppID", e.target_web_app_id),
   ("Target_RemoteName", e.target_remote_name),
   ("Target_WebServer", e.target_web_server)]

/-- `_create_dataframe`: the dataframe rows are the edge records in list
order — no sorting is applied. -/
def create_dataframe (edges : List EdgeRecord) : List (List (String × String)) :=
  edges.map EdgeRecord.to_row

/-- The sort key named by the spec's ordering requirement:
(sourceId, sourceName, targetId, targetName, relation). -/
def edge_key (e : EdgeRecord) : List String :=
  [e.source_id, e.source_name, e.target_id, e.target_name, e.relation]

/-! ## Run wrapper (`TopologyExporter.run`) -/

/-- `ExportResult` (the file-output list is omitted: file writing is I/O
outside this embedding). -/
structure ExportResult where
  success : Bool
  message : String
  total_services : Nat
  total_edges : Nat
  traversal_depth : Nat
deriving DecidableEq, Repr

/-- Python `str.strip()`: drop whitespace from both ends. -/
def py_strip (s : String) : String :=
  String.mk (((s.data.dropWhile Char.isWhitespace).reverse.dropWhile
    Char.isWhitespace).reverse)

/-- Root-id cleanup in `run`:
`[rid.strip() for rid in root_ids if rid and rid.strip()]`. -/
def root_filter (root_ids : List String) : List String :=
  root_ids.filterMap
    (fun rid => if rid != "" && py_strip rid != "" then some (py_strip rid) else none)

/-- `TopologyExporter.run`: validate roots, traverse, build edges, and wrap
everything in a structured result.  `_build_edges` runs only after a
completed traversal; when the traversal raises the cancellation error, the
handler reads `self._services` and the still-empty `self._edges`. -/
def run_export (batchSize : Nat) (env : Nat → List String → FetchResult)
    (cancel : Nat → Bool) (fuel : Nat) (root_ids : List String) : ExportResult :=
  if root_ids.isEmpty then
    ⟨false, "No root service IDs provided", 0, 0, 0⟩
  else
    let roots := root_filter root_ids
    if roots.isEmpty then
      ⟨false, "No valid root service IDs provided", 0, 0, 0⟩
    else
      match bfs_traverse batchSize env cancel fuel roots with
      | (s, .completed d) =>
        if s.services.isEmpty then
          ⟨true, "No services found. Check if root IDs are valid.", 0, 0, 0⟩
        else
          let edges := build_edges s.services
          ⟨true, "Export completed successfully", s.services.length, edges.length, d⟩
      | (s, .cancelled) =>
        ⟨false, "HTTP 0: Export cancelled by user", s.services.length, 0, 0⟩
      | (s, .fuelOut) =>
        ⟨false, "fuel exhausted (embedding artifact)", s.services.length, 0, 0⟩

/-! ## Full-scan extractor (`dynatrace_service_topology.py`) -/

/-- An edge tuple of the flat extractor:
(source_id, source_name, target_id, target_name, relationship). -/
def Edge5 : Type := String × String × String × String × String
deriving instance DecidableEq, Repr for Edge5

/-- Set insertion: Python `set.add` keeps one copy of each element.  The
model keeps insertion order; the claims only observe the underlying set. -/
def insertNew {α : Type} [BEq α] (l : List α) (a : α) : List α :=
  if l.contains a then l else l ++ [a]

/-- `TopologyExtractor` state: the id→name dict, the edge set, and the
unknown-id set. -/
structure ExtractorState where
  id_to_name : List (String × String)
  edges : List Edge5
  unknown_ids : List String
deriving DecidableEq, Repr

/-- `self.id_to_name.get(entity_id, "UNKNOWN")`. -/
def name_of (m : List (String × String)) (eid : String) : String :=
  match m.find? (fun p => p.1 == eid) with
  | some p => p.2
  | none => "UNKNOWN"

/-- `self.id_to_name[entity_id] = display_name` — dict assignment. -/
def upsert_name (m : List (String × String)) (eid nm : String) :
    List (String × String) :=
  if m.any (fun p => p.1 == eid) then
    m.map (fun p => if p.1 == eid then (p.1, nm) else p)
  else m ++ [(eid, nm)]

/-- The `if eid not in self.id_to_name: self.unknown_ids.add(eid)` blocks of
`_add_edge`. -/
def track_unknown (st : ExtractorState) (eid : String) : ExtractorState :=
  if st.id_to_name.any (fun p => p.1 == eid) then st
  else { st with unknown_ids := insertNew st.unknown_ids eid }

/-- `TopologyExtractor._add_edge`: track unknown endpoint ids, resolve names
with the "UNKNOWN" default, and add the full 5-tuple to the edge set. -/
def add_edge (st : ExtractorState) (source_id target_id relationship : String) :
    ExtractorState :=
  let st2 := track_unknown (track_unknown st source_id) target_id
  let source_name := name_of st2.id_to_name source_id
  let target_name := name_of st2.id_to_name target_id
  { st2 with
    edges := insertNew st2.edges (source_id, source_name, target_id, target_name, relationship) }

/-- `extract_relationships` body for one entity: emit a CALLS edge for each
SERVICE-typed outgoing call and a CALLED_BY edge for each SERVICE-typed
incoming call. -/
def extract_entity (st : ExtractorState) (e : RawEntity) : ExtractorState :=
  if e.entityId == "" then st
  else
    let st1 := e.calls.foldl
      (fun st r =>
        if r.id != "" && r.type == "SERVICE" then add_edge st e.entityId r.id "CALLS"
        else st)
      st
    e.called_by.foldl
      (fun st r =>
        if r.id != "" && r.type == "SERVICE" then add_edge st r.id e.entityId "CALLED_BY"
        else st)
      st1

/-- `TopologyExtractor.extract_relationships`. -/
def extract_relationships (st : ExtractorState) (entities : List RawEntity) :
    ExtractorState :=
  entities.foldl extract_entity st

/-- `TopologyExtractor.build_id_to_name_map`. -/
def build_id_to_name_map (st : ExtractorState) (entities : List RawEntity) :
    ExtractorState :=
  entities.foldl
    (fun st e =>
      if e.entityId == "" then st
      else { st with id_to_name := upsert_name st.id_to_name e.entityId e.displayName })
    st

/-! ## CSV export ordering (`write_csv`) -/

/-- Python's lexicographic sequence comparison (strict), parameterized by the
element strict order: a shorter sequence precedes any extension of it. -/
def lexLtBy {α : Type} (lt : α → α → Bool) : List α → List α → Bool
  | _, [] => false
  | [], _ :: _ => true
  | a :: as, b :: bs => if lt a b then true else if lt b a then false else lexLtBy lt as bs

/-- Strict character order by Unicode code point — Python's `str` order. -/
def charLtB (a b : Char) : Bool := Nat.blt a.toNat b.toNat

/-- Strict string order: lexicographic over code points. -/
def strLtB (a b : String) : Bool := lexLtBy charLtB a.data b.data

/-- Python `sorted` comparison on edge tuples: lexicographic over the five
string components (non-strict). -/
def edge5Le (a b : Edge5) : Bool :=
  let ka := [a.1, a.2.1, a.2.2.1, a.2.2.2.1, a.2.2.2.2]
  let kb := [b.1, b.2.1, b.2.2.1, b.2.2.2.1, b.2.2.2.2]
  lexLtBy strLtB ka kb || ka == kb

/-- `write_csv`: the data rows written after the header are
`sorted(edges)` — the edge tuples in full-tuple lexicographic order. -/
def write_csv_rows (edges : List Edge5) : List Edge5 :=
  edges.mergeSort edge5Le

/-! ## Reachability (specification side, for the BFS depth claim) -/

/-- `reachN adj roots n x`: there is a walk of exactly `n` call-hops from
some root to `x`. -/
def reachN (adj : String → List String) (roots : List String) : Nat → String → Prop
  | 0, x => x ∈ roots
  | n + 1, x => ∃ p, reachN adj roots n p ∧ x ∈ adj p

/-! ## Claims C4, C5, C10 — retry machinery -/

/-- Claim C4: against a backend that answers HTTP 429 on every attempt, one
logical request issues exactly `max_retries + 1` HTTP attempts and then fails
with the rate-limit-exhausted error; it neither retries further nor returns
success. -/
theorem rate_limited_every_attempt_exhausts {β : Type} (max_retries : Nat)
    (initial_backoff maxB : ℚ) (respond : Nat → HttpResponse β)
    (h429 : ∀ n, (respond n).status = 429) :
    (execute_with_retry max_retries initial_backoff maxB respond none).attempts
        = max_retries + 1 ∧
    (execute_with_retry max_retries initial_backoff maxB respond none).outcome
        = .error ⟨429, "Rate limit exceeded after maximum retries"⟩ := by
  rw [execute_with_retry, retry_loop_all_429 maxB respond h429]
  exact ⟨by simp, rfl⟩

/-- Witness for C4 at the default `max_retries = 5`: six attempts, then the
exhaustion error. -/
theorem rate_limited_every_attempt_exhausts_witness :
    (∀ n, ((fun _ => ⟨429, "", ()⟩ : Nat → HttpResponse Unit) n).status = 429) ∧
    (execute_with_retry 5 1 60 (fun _ => (⟨429, "", ()⟩ : HttpResponse Unit)) none).attempts
        = 5 + 1 ∧
    (execute_with_retry 5 1 60 (fun _ => (⟨429, "", ()⟩ : HttpResponse Unit)) none).outcome
        = .error ⟨429, "Rate limit exceeded after maximum retries"⟩ :=
  ⟨fun _ => rfl,
    rate_limited_every_attempt_exhausts 5 1 60 (fun _ => ⟨429, "", ()⟩) (fun _ => rfl)⟩

/-- Claim C5: against a backend that answers HTTP 429 exactly `max_retries`
times and then 200, the call succeeds with the decoded body after
`max_retries + 1` attempts, and the backoff sleeps are exactly
`min (initial_backoff * 2 ^ k) max_backoff` for `k = 0, ..., max_retries - 1`
in order.  (The first sleep is the uncapped `initial_backoff`, so the stated
formula requires `initial_backoff ≤ max_backoff`, which holds for the
defaults 1.0 and 60.0.) -/
theorem rate_limited_then_ok_backoff {β : Type} (max_retries : Nat)
    (initial_backoff maxB : ℚ) (respond : Nat → HttpResponse β)
    (h0 : 0 ≤ initial_backoff) (h1 : initial_backoff ≤ maxB)
    (h429 : ∀ i, i < max_retries → (respond i).status = 429)
    (h200 : (respond max_retries).status = 200) :
    execute_with_retry max_retries initial_backoff maxB respond none =
      ⟨max_retries + 1, 0,
        (List.range max_retries).map (fun k => min (initial_backoff * 2 ^ k) maxB),
        .ok (respond max_retries).body⟩ := by
  rw [execute_with_retry,
    retry_loop_429_then_ok maxB respond max_retries max_retries 0 initial_backoff 0 []
      le_rfl (fun i hi => by simpa using h429 i hi) (by simpa using h200)]
  rw [backoffSeq_eq_min_pow maxB max_retries initial_backoff h0 h1]
  simp

/-- Witness for C5 with `max_retries = 4`, `initial_backoff = 1`,
`max_backoff = 4`: the sleeps are [1, 2, 4, 4] — doubling, then capped. -/
theorem rate_limited_then_ok_backoff_witness :
    ((0 : ℚ) ≤ 1 ∧ (1 : ℚ) ≤ 4) ∧
    execute_with_retry 4 1 4
        (fun n => if n < 4 then (⟨429, "", "nope"⟩ : HttpResponse String)
                  else ⟨200, "", "payload"⟩) none =
      ⟨5, 0, [1, 2, 4, 4], .ok "payload"⟩ := by
  refine ⟨⟨by norm_num, by norm_num⟩, ?_⟩
  rw [rate_limited_then_ok_backoff 4 1 4
    (fun n => if n < 4 then (⟨429, "", "nope"⟩ : HttpResponse String)
              else ⟨200, "", "payload"⟩)
    (by norm_num) (by norm_num)
    (fun i hi => by simp [hi])
    (by norm_num)]
  norm_num [List.range_succ, min_def]

/-- Claim C10: `fetch_services_by_ids` with an empty id list returns an empty
list with zero HTTP attempts and zero cancellation-callback invocations — the
retry machinery is never entered. -/
theorem fetch_services_empty_ids_no_http (max_retries : Nat)
    (initial_backoff maxB : ℚ) (respond : Nat → HttpResponse (List RawEntity))
    (cc : Option (Nat → Bool)) :
    fetch_services_by_ids max_retries initial_backoff maxB respond cc [] =
      ⟨0, 0, [], .ok []⟩ := rfl

/-! ## BFS loop: basic lemmas and concrete scenarios -/

/-- `contains` agrees with membership (for lawful BEq). -/
theorem contains_iff_mem {α : Type} [BEq α] [LawfulBEq α] (l : List α) (a : α) :
    l.contains a = true ↔ a ∈ l := by
  simp [List.contains_eq_any_beq, List.any_eq_true, eq_comm]

/-- A drained queue ends the loop at once, whatever fuel remains. -/
theorem bfs_loop_empty_queue (batchSize : Nat) (env : Nat → List String → FetchResult)
    (cancel : Nat → Bool) (fuel : Nat) (s : BfsState) (h : s.queue = []) :
    bfs_loop batchSize env cancel fuel s = (s, .completed s.maxDepth) := by
  cases fuel <;> simp [bfs_loop, h]

/-- Fuel monotonicity: once a run completes with some fuel, any larger fuel
produces the identical result.  This is the termination content of the
embedding: the fuel is an artifact, not part of the algorithm. -/
theorem bfs_loop_fuel_mono (batchSize : Nat) (env : Nat → List String → FetchResult)
    (cancel : Nat → Bool) :
    ∀ (fuel fuel' : Nat) (s : BfsState), fuel ≤ fuel' →
      (∃ d, (bfs_loop batchSize env cancel fuel s).2 = .completed d) →
      bfs_loop batchSize env cancel fuel' s = bfs_loop batchSize env cancel fuel s := by
  intro fuel
  induction fuel with
  | zero =>
    intro fuel' s _ hdone
    by_cases hq : s.queue.isEmpty
    · rw [List.isEmpty_iff] at hq
      rw [bfs_loop_empty_queue _ _ _ _ _ hq, bfs_loop_empty_queue _ _ _ _ _ hq]
    · exfalso
      obtain ⟨d, hd⟩ := hdone
      simp [bfs_loop, hq] at hd
  | succ fuel ih =>
    intro fuel' s hle hdone
    by_cases hq : s.queue.isEmpty
    · rw [List.isEmpty_iff] at hq
      rw [bfs_loop_empty_queue _ _ _ _ _ hq, bfs_loop_empty_queue _ _ _ _ _ hq]
    · obtain ⟨fuel'', rfl⟩ : ∃ k, fuel' = k + 1 := ⟨fuel' - 1, by omega⟩
      by_cases hc : cancel s.iter
      · exfalso
        obtain ⟨d, hd⟩ := hdone
        simp [bfs_loop, hq, hc] at hd
      · by_cases hb : (s.queue.take batchSize).isEmpty
        · simp [bfs_loop, hq, hc, hb]
        · obtain ⟨d, hd⟩ := hdone
          rw [bfs_loop] at hd ⊢
          simp only [hq, hc, hb, Bool.false_eq_true, if_false, if_neg] at hd ⊢
          rw [bfs_loop]
          simp only [hq, hc, hb, Bool.false_eq_true, if_false, if_neg]
          exact ih fuel'' (bfs_step batchSize env s) (by omega) ⟨d, hd⟩

/-- A service entity with the given id, a derived display name, empty
enrichment properties, and the given outgoing calls. -/
def mkSvc (eid : String) (calls : List String) : ServiceEntity :=
  { entity_id := eid, display_name := "svc-" ++ eid, process_group := "",
    web_application_id := "", web_server_name := "", remote_endpoint := "",
    service_type := "", calls := calls }

/-- The three-node cycle of the spec scenario: A calls B, B calls C,
C calls A. -/
def cycGraph (eid : String) : ServiceEntity :=
  mkSvc eid
    (if eid == "A" then ["B"] else if eid == "B" then ["C"]
     else if eid == "C" then ["A"] else [])

/-- A backend answering every batch fetch with exactly the requested nodes of
`cycGraph`, in request order. -/
def cycEnv : Nat → List String → FetchResult :=
  fun _ ids => .ok (ids.map cycGraph)

/-- A cancellation flag that is never set. -/
def neverCancel : Nat → Bool := fun _ => false

/-- Claim C9: on roots = ["A"] over the cycle A→B→C→A, the traversal
terminates (any fuel of at least 3 iterations yields the same completed run —
the visited set breaks the cycle), the discovered services are exactly
A, B, C, and the materialized edges are exactly (A,B), (B,C), (C,A). -/
theorem cyclic_traversal_terminates (n : Nat) :
    (bfs_traverse 50 cycEnv neverCancel (n + 3) ["A"]).2 = .completed 2 ∧
    ((bfs_traverse 50 cycEnv neverCancel (n + 3) ["A"]).1.services.map Prod.fst)
      = ["A", "B", "C"] ∧
    ((build_edges (bfs_traverse 50 cycEnv neverCancel (n + 3) ["A"]).1.services).map
        (fun e => (e.source_id, e.target_id)))
      = [("A", "B"), ("B", "C"), ("C", "A")] := by
  have hmono : bfs_traverse 50 cycEnv neverCancel (n + 3) ["A"]
      = bfs_traverse 50 cycEnv neverCancel 3 ["A"] := by
    exact bfs_loop_fuel_mono 50 cycEnv neverCancel 3 (n + 3) (seed_state ["A"])
      (by omega) ⟨2, by decide⟩
  rw [hmono]
  exact ⟨by decide, by decide, by decide⟩

/-- The line graph A → B used for the cancellation scenario. -/
def lineGraph (eid : String) : ServiceEntity :=
  mkSvc eid (if eid == "A" then ["B"] else [])

/-- A backend answering every batch fetch with the requested nodes of
`lineGraph`. -/
def lineEnv : Nat → List String → FetchResult :=
  fun _ ids => .ok (ids.map lineGraph)

/-- A cancellation flag set after the first loop iteration (the user cancels
once the first batch has been processed). -/
def cancelAfterFirst : Nat → Bool := fun i => decide (1 ≤ i)

/-- Counterexample for claim C8.  Cancelling after the first batch does end
the run in the Cancelled state with `total_services` = 1 (the partial
discovery), but `_build_edges` only runs after a *completed* traversal, so
nothing is materialized and `total_edges` is 0 — it does not reflect the one
edge (A→B) derivable from the services discovered before cancellation. -/
theorem cancelled_run_partial_edges_counterexample :
    run_export 50 lineEnv cancelAfterFirst 5 ["A"]
      = ⟨false, "HTTP 0: Export cancelled by user", 1, 0, 0⟩ ∧
    (build_edges (bfs_traverse 50 lineEnv cancelAfterFirst 5 ["A"]).1.services).length
      = 1 ∧
    (run_export 50 lineEnv cancelAfterFirst 5 ["A"]).total_edges ≠
      (build_edges (bfs_traverse 50 lineEnv cancelAfterFirst 5 ["A"]).1.services).length := by
  exact ⟨by decide, by decide, by decide⟩

/-- Amended claim C8: a run whose traversal ends in the Cancelled state
returns the failure result carrying the cancellation message, the partial
count of discovered services — and always `total_edges = 0`, because edge
materialization only happens after a completed traversal. -/
theorem cancelled_run_result (batchSize fuel : Nat)
    (env : Nat → List String → FetchResult) (cancel : Nat → Bool)
    (root_ids : List String) (s : BfsState)
    (h0 : root_ids ≠ [])
    (h1 : root_filter root_ids ≠ [])
    (h2 : bfs_traverse batchSize env cancel fuel (root_filter root_ids) = (s, .cancelled)) :
    run_export batchSize env cancel fuel root_ids
      = ⟨false, "HTTP 0: Export cancelled by user", s.services.length, 0, 0⟩ := by
  rw [run_export]
  simp only [List.isEmpty_iff, h0, h1, h2, if_false, if_neg]

/-- Witness for the amended C8 on the concrete mid-run-cancellation
scenario. -/
theorem cancelled_run_result_witness :
    run_export 50 lineEnv cancelAfterFirst 5 ["A"]
      = ⟨false, "HTTP 0: Export cancelled by user",
          (bfs_traverse 50 lineEnv cancelAfterFirst 5 ["A"]).1.services.length, 0, 0⟩ :=
  cancelled_run_result 50 5 lineEnv cancelAfterFirst ["A"]
    (bfs_traverse 50 lineEnv cancelAfterFirst 5 ["A"]).1
    (by decide) (by decide) (Prod.ext rfl (by decide))

/-! ## Claim C1 — edge deduplication -/

/-- The graph in which the API reports a duplicated outgoing call:
A's call list is [B, B]. -/
def dupGraph (eid : String) : ServiceEntity :=
  mkSvc eid (if eid == "A" then ["B", "B"] else [])

/-- A backend answering every batch fetch with the requested nodes of
`dupGraph`. -/
def dupEnv : Nat → List String → FetchResult :=
  fun _ ids => .ok (ids.map dupGraph)

/-- Counterexample for claim C1.  When the API reports the duplicate target
id B in A's outgoing-call list (which `from_api_response` preserves), the BFS
variant's `_build_edges` emits *two* records for the pair (A, B) — not
exactly one: it performs no `(sourceId, targetId)` deduplication. -/
theorem edge_dedup_counterexample :
    (from_api_response
        { entityId := "A", displayName := "svc-A", properties := [],
          calls := [{ id := "B", type := "SERVICE" }, { id := "B", type := "SERVICE" }],
          called_by := [] }).calls = ["B", "B"] ∧
    ((build_edges (bfs_traverse 50 dupEnv neverCancel 5 ["A"]).1.services).countP
        (fun e => e.source_id == "A" && e.target_id == "B")) = 2 ∧
    ((build_edges (bfs_traverse 50 dupEnv neverCancel 5 ["A"]).1.services).countP
        (fun e => e.source_id == "A" && e.target_id == "B")) ≠ 1 :=
  ⟨by decide, by decide, by decide⟩

/-- `_build_edges` as a flat map: fold-with-append unrolled. -/
theorem build_edges_foldl_acc (full : List (String × ServiceEntity)) :
    ∀ (m : List (String × ServiceEntity)) (acc : List EdgeRecord),
      m.foldl
          (fun acc p =>
            acc ++ p.2.calls.map (fun tid => mk_edge p.2 tid (lookup_service full tid)))
          acc
        = acc ++ m.flatMap
            (fun p => p.2.calls.map (fun tid => mk_edge p.2 tid (lookup_service full tid))) := by
  intro m
  induction m with
  | nil => intro acc; simp
  | cons p m ih => intro acc; simp [List.flatMap_cons, ih]

/-- `_build_edges` emits one record per occurrence of a target in a
discovered service's call list. -/
theorem build_edges_eq (services : List (String × ServiceEntity)) :
    build_edges services
      = services.flatMap
          (fun p => p.2.calls.map (fun tid => mk_edge p.2 tid (lookup_service services tid))) := by
  rw [build_edges, build_edges_foldl_acc]
  simp

theorem insertNew_contains_self {α : Type} [BEq α] [LawfulBEq α] (l : List α) (a : α) :
    (insertNew l a).contains a = true := by
  unfold insertNew
  by_cases h : l.contains a = true
  · rw [if_pos h]; exact h
  · rw [if_neg h, contains_iff_mem]; simp

theorem insertNew_contains_mono {α : Type} [BEq α] [LawfulBEq α] (l : List α) (a b : α)
    (h : l.contains a = true) : (insertNew l b).contains a = true := by
  unfold insertNew
  by_cases hb : l.contains b = true
  · rw [if_pos hb]; exact h
  · rw [if_neg hb, contains_iff_mem]
    rw [contains_iff_mem] at h
    simp [h]

theorem insertNew_of_contains {α : Type} [BEq α] (l : List α) (a : α)
    (h : l.contains a = true) : insertNew l a = l := by
  simp [insertNew, h]

theorem track_unknown_id_to_name (st : ExtractorState) (e : String) :
    (track_unknown st e).id_to_name = st.id_to_name := by
  unfold track_unknown; split <;> rfl

theorem track_unknown_keeps_edges (st : ExtractorState) (e : String) :
    (track_unknown st e).edges = st.edges := by
  unfold track_unknown; split <;> rfl

/-- `track_unknown` only reads `id_to_name` and writes `unknown_ids`, so it
commutes with replacing the edge set. -/
theorem track_unknown_edges_comm (st : ExtractorState) (E : List Edge5) (e : String) :
    track_unknown { st with edges := E } e = { track_unknown st e with edges := E } := by
  unfold track_unknown
  by_cases h : st.id_to_name.any (fun p => p.1 == e) = true <;> simp [h]

/-- An id already present in the name map or the unknown set is not tracked
again. -/
theorem track_unknown_absorb (st : ExtractorState) (e : String)
    (h : st.id_to_name.any (fun p => p.1 == e) = true ∨ st.unknown_ids.contains e = true) :
    track_unknown st e = st := by
  unfold track_unknown
  rcases h with h | h
  · rw [if_pos h]
  · by_cases h2 : st.id_to_name.any (fun p => p.1 == e) = true
    · rw [if_pos h2]
    · rw [if_neg h2, insertNew_of_contains _ _ h]

/-- After `track_unknown st e`, the id `e` is accounted for. -/
theorem track_unknown_tracked (st : ExtractorState) (e : String) :
    (track_unknown st e).id_to_name.any (fun p => p.1 == e) = true ∨
    (track_unknown st e).unknown_ids.contains e = true := by
  unfold track_unknown
  by_cases h : st.id_to_name.any (fun p => p.1 == e) = true
  · left; rw [if_pos h]; exact h
  · right; rw [if_neg h]; exact insertNew_contains_self _ _

theorem track_unknown_contains_mono (st : ExtractorState) (x e : String)
    (h : st.unknown_ids.contains e = true) :
    (track_unknown st x).unknown_ids.contains e = true := by
  unfold track_unknown
  by_cases hc : st.id_to_name.any (fun p => p.1 == x) = true
  · rw [if_pos hc]; exact h
  · rw [if_neg hc]; exact insertNew_contains_mono _ _ _ h

/-- Re-tracking the endpoint pair of an already-added edge changes nothing. -/
theorem track_pair_stable (st : ExtractorState) (s t : String) :
    track_unknown (track_unknown (track_unknown (track_unknown st s) t) s) t
      = track_unknown (track_unknown st s) t := by
  have h1 : track_unknown (track_unknown (track_unknown st s) t) s
      = track_unknown (track_unknown st s) t := by
    apply track_unknown_absorb
    rcases track_unknown_tracked st s with h | h
    · left
      rw [track_unknown_id_to_name] at h
      rw [track_unknown_id_to_name, track_unknown_id_to_name]
      exact h
    · right; exact track_unknown_contains_mono _ _ _ h
  rw [h1]
  apply track_unknown_absorb
  exact track_unknown_tracked (track_unknown st s) t

theorem ExtractorState.ext_fields (a b : ExtractorState)
    (h1 : a.id_to_name = b.id_to_name) (h2 : a.edges = b.edges)
    (h3 : a.unknown_ids = b.unknown_ids) : a = b := by
  cases a; cases b
  cases h1; cases h2; cases h3
  rfl

/-- Field characterization of `track_unknown` on `unknown_ids`. -/
theorem track_unknown_unknown_ids (a : ExtractorState) (e : String) :
    (track_unknown a e).unknown_ids =
      if a.id_to_name.any (fun p => p.1 == e) = true then a.unknown_ids
      else insertNew a.unknown_ids e := by
  unfold track_unknown
  by_cases h : a.id_to_name.any (fun p => p.1 == e) = true
  · rw [if_pos h, if_pos h]
  · rw [if_neg h, if_neg h]

theorem add_edge_id_to_name (st : ExtractorState) (s t r : String) :
    (add_edge st s t r).id_to_name = st.id_to_name := by
  show (track_unknown (track_unknown st s) t).id_to_name = st.id_to_name
  rw [track_unknown_id_to_name, track_unknown_id_to_name]

theorem add_edge_unknown_ids (st : ExtractorState) (s t r : String) :
    (add_edge st s t r).unknown_ids
      = (track_unknown (track_unknown st s) t).unknown_ids := rfl

theorem add_edge_edges (st : ExtractorState) (s t r : String) :
    (add_edge st s t r).edges
      = insertNew st.edges
          (s, name_of st.id_to_name s, t, name_of st.id_to_name t, r) := by
  show insertNew (track_unknown (track_unknown st s) t).edges
      (s, name_of (track_unknown (track_unknown st s) t).id_to_name s, t,
        name_of (track_unknown (track_unknown st s) t).id_to_name t, r) = _
  rw [track_unknown_keeps_edges, track_unknown_keeps_edges,
    track_unknown_id_to_name, track_unknown_id_to_name]

/-- Adding the identical edge observation twice leaves the state of the
full-scan extractor unchanged: the edge set is a set. -/
theorem add_edge_idem (st : ExtractorState) (s t r : String) :
    add_edge (add_edge st s t r) s t r = add_edge st s t r := by
  apply ExtractorState.ext_fields
  · rw [add_edge_id_to_name, add_edge_id_to_name]
  · rw [add_edge_edges, add_edge_edges, add_edge_id_to_name]
    exact insertNew_of_contains _ _ (insertNew_contains_self _ _)
  · rw [add_edge_unknown_ids, add_edge_unknown_ids]
    rw [track_unknown_unknown_ids, track_unknown_unknown_ids,
      track_unknown_unknown_ids, track_unknown_unknown_ids]
    rw [track_unknown_id_to_name, track_unknown_id_to_name,
      add_edge_id_to_name]
    rw [add_edge_unknown_ids]
    rw [track_unknown_unknown_ids, track_unknown_unknown_ids,
      track_unknown_id_to_name]
    by_cases c1 : st.id_to_name.any (fun p => p.1 == s) = true <;>
      by_cases c2 : st.id_to_name.any (fun p => p.1 == t) = true <;>
      simp only [c1, c2, Bool.false_eq_true, if_true, if_false]
    · exact insertNew_of_contains (insertNew st.unknown_ids t) t
        (insertNew_contains_self st.unknown_ids t)
    · exact insertNew_of_contains (insertNew st.unknown_ids s) s
        (insertNew_contains_self st.unknown_ids s)
    · rw [insertNew_of_contains (insertNew (insertNew st.unknown_ids s) t) s
          (insertNew_contains_mono (insertNew st.unknown_ids s) s t
            (insertNew_contains_self st.unknown_ids s)),
        insertNew_of_contains (insertNew (insertNew st.unknown_ids s) t) t
          (insertNew_contains_self (insertNew st.unknown_ids s) t)]

/-- Amended claim C1.  Neither variant deduplicates by `(sourceId, targetId)`:
(1) the BFS variant's `_build_edges` emits exactly one record per
*occurrence* of a target in a discovered service's call list, so an API-level
duplicate produces duplicate records; (2) the full-scan variant's edge set
deduplicates identical full 5-tuples — adding the same observation twice
keeps one record; (3) but the same `(sourceId, targetId)` pair observed via
both an outgoing `calls` and an incoming `called_by` relationship yields two
records, because the relation label differs. -/
theorem edge_dedup_amended :
    (∀ (services : List (String × ServiceEntity)) (a b : String),
      (build_edges services).countP (fun e => e.source_id == a && e.target_id == b)
        = (services.map (fun p => if p.2.entity_id == a then p.2.calls.count b else 0)).sum) ∧
    (∀ (st : ExtractorState) (src tgt rel : String),
      add_edge (add_edge st src tgt rel) src tgt rel = add_edge st src tgt rel) ∧
    ((extract_relationships
        (build_id_to_name_map ⟨[], [], []⟩
          [⟨"A", "svc-A", [], [⟨"B", "SERVICE"⟩], []⟩,
           ⟨"B", "svc-B", [], [], [⟨"A", "SERVICE"⟩]⟩])
        [⟨"A", "svc-A", [], [⟨"B", "SERVICE"⟩], []⟩,
         ⟨"B", "svc-B", [], [], [⟨"A", "SERVICE"⟩]⟩]).edges.countP
        (fun e => e.1 == "A" && e.2.2.1 == "B")) = 2 := by
  refine ⟨?_, fun st src tgt rel => add_edge_idem st src tgt rel, by decide⟩
  intro services a b
  rw [build_edges_eq, List.countP_flatMap]
  apply congrArg List.sum
  apply List.map_congr_left
  intro pr _
  simp only [Function.comp]
  rw [List.countP_map]
  have hfe : ((fun e => e.source_id == a && e.target_id == b) ∘
      fun tid => mk_edge pr.2 tid (lookup_service services tid))
      = (fun tid => pr.2.entity_id == a && tid == b) := funext fun tid => rfl
  rw [hfe]
  by_cases ha : (pr.2.entity_id == a) = true <;>
    simp [ha, List.count_eq_countP]

/-! ## Claim C6 — export ordering -/

theorem lexLtBy_trans {α : Type} (lt : α → α → Bool)
    (ht : ∀ a b c, lt a b = true → lt b c = true → lt a c = true)
    (hconn : ∀ a b, lt a b = false → lt b a = false → a = b)
    (hirr : ∀ a, lt a a = false) :
    ∀ (as bs cs : List α), lexLtBy lt as bs = true → lexLtBy lt bs cs = true →
      lexLtBy lt as cs = true := by
  have hasym : ∀ a b, lt a b = true → lt b a = false := by
    intro a b hab
    by_contra hba
    rw [Bool.not_eq_false] at hba
    have := ht a b a hab hba
    rw [hirr a] at this
    exact Bool.false_ne_true this
  intro as
  induction as with
  | nil =>
    intro bs cs h1 h2
    cases bs with
    | nil => simpa [lexLtBy] using h1
    | cons b bs =>
      cases cs with
      | nil => simpa [lexLtBy] using h2
      | cons c cs => simp [lexLtBy]
  | cons a as ih =>
    intro bs cs h1 h2
    cases bs with
    | nil => simpa [lexLtBy] using h1
    | cons b bs =>
      cases cs with
      | nil => simpa [lexLtBy] using h2
      | cons c cs =>
        simp only [lexLtBy] at h1 h2 ⊢
        by_cases hab : lt a b = true
        · by_cases hbc : lt b c = true
          · rw [ht a b c hab hbc]
            simp
          · by_cases hcb : lt c b = true
            · rw [hcb] at h2
              simp [hbc] at h2
            · have hbceq := hconn b c (by rwa [Bool.not_eq_true] at hbc)
                (by rwa [Bool.not_eq_true] at hcb)
              subst hbceq
              rw [hab]
              simp
        · by_cases hba : lt b a = true
          · rw [hba] at h1
            simp [hab] at h1
          · have habeq := hconn a b (by rwa [Bool.not_eq_true] at hab)
              (by rwa [Bool.not_eq_true] at hba)
            subst habeq
            rw [Bool.not_eq_true] at hab
            simp only [hab, Bool.false_eq_true, if_false, hirr a, if_false] at h1 h2 ⊢
            by_cases hac : lt a c = true
            · rw [hac]; simp
            · by_cases hca : lt c a = true
              · rw [hca] at h2
                simp [hac] at h2
              · rw [Bool.not_eq_true] at hac hca
                simp only [hac, hca, Bool.false_eq_true, if_false] at h2 ⊢
                exact ih bs cs h1 h2

theorem lexLtBy_conn {α : Type} (lt : α → α → Bool)
    (hconn : ∀ a b, lt a b = false → lt b a = false → a = b) :
    ∀ (as bs : List α), lexLtBy lt as bs = false → lexLtBy lt bs as = false →
      as = bs := by
  intro as
  induction as with
  | nil =>
    intro bs h1 _
    cases bs with
    | nil => rfl
    | cons b bs => simp [lexLtBy] at h1
  | cons a as ih =>
    intro bs h1 h2
    cases bs with
    | nil => simp [lexLtBy] at h2
    | cons b bs =>
      simp only [lexLtBy] at h1 h2
      by_cases hab : lt a b = true
      · rw [hab] at h1; simp at h1
      · by_cases hba : lt b a = true
        · rw [hba] at h2; simp at h2
        · rw [Bool.not_eq_true] at hab hba
          have habeq := hconn a b hab hba
          subst habeq
          simp only [hab, Bool.false_eq_true, if_false] at h1 h2
          rw [ih bs h1 h2]

theorem lexLtBy_irrefl {α : Type} (lt : α → α → Bool) (hirr : ∀ a, lt a a = false) :
    ∀ as : List α, lexLtBy lt as as = false := by
  intro as
  induction as with
  | nil => rfl
  | cons a as ih => simp [lexLtBy, hirr a, ih]

theorem charLtB_trans (a b c : Char) (h1 : charLtB a b = true) (h2 : charLtB b c = true) :
    charLtB a c = true := by
  simp only [charLtB, Nat.blt_eq] at h1 h2 ⊢
  omega

theorem charLtB_conn (a b : Char) (h1 : charLtB a b = false) (h2 : charLtB b a = false) :
    a = b := by
  simp only [charLtB] at h1 h2
  have : a.toNat = b.toNat := by
    have g1 : ¬ (a.toNat < b.toNat) := by
      intro h; rw [(Nat.blt_eq).mpr h] at h1; exact Bool.noConfusion h1
    have g2 : ¬ (b.toNat < a.toNat) := by
      intro h; rw [(Nat.blt_eq).mpr h] at h2; exact Bool.noConfusion h2
    omega
  exact Char.ext (UInt32.ext this)

theorem charLtB_irrefl (a : Char) : charLtB a a = false := by
  rw [Bool.eq_false_iff]
  intro h
  simp only [charLtB, Nat.blt_eq] at h
  omega

theorem strLtB_trans (a b c : String) (h1 : strLtB a b = true) (h2 : strLtB b c = true) :
    strLtB a c = true :=
  lexLtBy_trans charLtB charLtB_trans charLtB_conn charLtB_irrefl
    a.data b.data c.data h1 h2

theorem strLtB_conn (a b : String) (h1 : strLtB a b = false) (h2 : strLtB b a = false) :
    a = b := by
  have := lexLtBy_conn charLtB charLtB_conn a.data b.data h1 h2
  cases a; cases b
  exact congrArg String.mk this

theorem strLtB_irrefl (a : String) : strLtB a a = false :=
  lexLtBy_irrefl charLtB charLtB_irrefl a.data

/-- `edge5Le` is transitive. -/
theorem edge5Le_trans (a b c : Edge5) (h1 : edge5Le a b = true) (h2 : edge5Le b c = true) :
    edge5Le a c = true := by
  simp only [edge5Le, Bool.or_eq_true, beq_iff_eq] at h1 h2 ⊢
  rcases h1 with h1 | h1 <;> rcases h2 with h2 | h2
  · exact Or.inl (lexLtBy_trans strLtB strLtB_trans strLtB_conn strLtB_irrefl _ _ _ h1 h2)
  · rw [← h2]; exact Or.inl h1
  · rw [h1]; exact Or.inl h2
  · rw [h1, h2]; exact Or.inr rfl

/-- `edge5Le` is total. -/
theorem edge5Le_total (a b : Edge5) : (edge5Le a b || edge5Le b a) = true := by
  simp only [edge5Le, Bool.or_eq_true, beq_iff_eq]
  by_cases h1 : lexLtBy strLtB [a.1, a.2.1, a.2.2.1, a.2.2.2.1, a.2.2.2.2]
      [b.1, b.2.1, b.2.2.1, b.2.2.2.1, b.2.2.2.2] = true
  · exact Or.inl (Or.inl h1)
  · by_cases h2 : lexLtBy strLtB [b.1, b.2.1, b.2.2.1, b.2.2.2.1, b.2.2.2.2]
        [a.1, a.2.1, a.2.2.1, a.2.2.2.1, a.2.2.2.2] = true
    · exact Or.inr (Or.inl h2)
    · rw [Bool.not_eq_true] at h1 h2
      exact Or.inl (Or.inr (lexLtBy_conn strLtB strLtB_conn _ _ h1 h2))

/-- Non-strict key comparison on `EdgeRecord`s by the spec's sort tuple
(sourceId, sourceName, targetId, targetName, relation). -/
def edge_key_le (a b : EdgeRecord) : Bool :=
  lexLtBy strLtB (edge_key a) (edge_key b) || edge_key a == edge_key b

/-- The graph Z → A → Z used for the ordering counterexample. -/
def zaGraph (eid : String) : ServiceEntity :=
  mkSvc eid (if eid == "Z" then ["A"] else if eid == "A" then ["Z"] else [])

/-- A backend answering every batch fetch with the requested nodes of
`zaGraph`. -/
def zaEnv : Nat → List String → FetchResult :=
  fun _ ids => .ok (ids.map zaGraph)

/-- Counterexample for claim C6.  In the BFS variant, the edge list handed to
`_create_dataframe` is in service-discovery order, not sorted: with root "Z"
calling "A" (which calls back "Z"), the rows come out ["Z"→"A", "A"→"Z"],
violating the (sourceId, ...) tuple order. -/
theorem bfs_rows_unsorted_counterexample :
    ¬ ((build_edges (bfs_traverse 50 zaEnv neverCancel 5 ["Z"]).1.services).Pairwise
        (fun a b => edge_key_le a b = true)) := by
  decide

/-- Amended claim C6: only the full-scan variant sorts.  `write_csv` hands
the edge rows to the CSV writer sorted by the full
(sourceId, sourceName, targetId, targetName, relation) tuple and writes a
permutation of the edge set, so its output is deterministic; the BFS
variant's `_create_dataframe` preserves the materialization order of
`_build_edges` without sorting. -/
theorem export_ordering_amended :
    (∀ edges : List Edge5,
      (write_csv_rows edges).Pairwise (fun a b => edge5Le a b = true) ∧
      (write_csv_rows edges).Perm edges) ∧
    (∀ edges : List EdgeRecord, create_dataframe edges = edges.map EdgeRecord.to_row) :=
  ⟨fun edges =>
    ⟨List.sorted_mergeSort edge5Le_trans edge5Le_total edges,
     List.mergeSort_perm edges edge5Le⟩,
   fun _ => rfl⟩

/-! ## Claim C2 — visited/frontier bookkeeping invariant -/

/-- The bookkeeping invariant of a BFS state: `visited` is exactly the list
of ids ever enqueued (in enqueue order), no id was ever enqueued twice, and
the ids handed to batch fetches followed by the ids still queued partition
the enqueue log. -/
def bfs_core_inv (s : BfsState) : Prop :=
  s.visited = s.log.map Prod.fst ∧
  (s.log.map Prod.fst).Nodup ∧
  (s.fetched.map Prod.snd).flatten ++ s.queue.map Prod.fst = s.log.map Prod.fst

theorem bfs_core_inv_enqueue (d : Nat) (s : BfsState) (t : String)
    (h : bfs_core_inv s) : bfs_core_inv (enqueue_target d s t) := by
  obtain ⟨hv, hn, hd⟩ := h
  unfold enqueue_target
  by_cases hc : s.visited.contains t = true
  · rw [if_pos hc]; exact ⟨hv, hn, hd⟩
  · rw [if_neg hc]
    rw [contains_iff_mem, hv] at hc
    refine ⟨?_, ?_, ?_⟩
    · simp [hv]
    · simp only [List.map_append, List.map_cons, List.map_nil]
      rw [List.nodup_append]
      refine ⟨hn, List.nodup_singleton t, ?_⟩
      intro a ha hat
      rw [List.mem_singleton] at hat
      subst hat
      exact hc ha
    · simp only [List.map_append, List.map_cons, List.map_nil, ← List.append_assoc, hd]

theorem bfs_core_inv_enqueue_fold (d : Nat) (targets : List String) :
    ∀ (s : BfsState), bfs_core_inv s →
      bfs_core_inv (targets.foldl (enqueue_target d) s) := by
  induction targets with
  | nil => intro s h; exact h
  | cons t ts ih =>
    intro s h
    exact ih _ (bfs_core_inv_enqueue d s t h)

/-- The invariant ignores the `services` map and the iteration counter. -/
theorem bfs_core_inv_services (s : BfsState) (m : List (String × ServiceEntity))
    (h : bfs_core_inv s) : bfs_core_inv { s with services := m } := h

theorem bfs_core_inv_process (batch : List (String × Nat)) (sv : ServiceEntity)
    (s : BfsState) (h : bfs_core_inv s) :
    bfs_core_inv (process_service batch s sv) := by
  unfold process_service
  exact bfs_core_inv_enqueue_fold _ _ _ (bfs_core_inv_services s _ h)

theorem bfs_core_inv_process_fold (batch : List (String × Nat))
    (svs : List ServiceEntity) :
    ∀ (s : BfsState), bfs_core_inv s →
      bfs_core_inv (svs.foldl (process_service batch) s) := by
  induction svs with
  | nil => intro s h; exact h
  | cons sv svs ih =>
    intro s h
    exact ih _ (bfs_core_inv_process batch sv s h)

/-- Popping a batch preserves the invariant: the popped ids move from the
queue side of the partition into the fetched side. -/
theorem bfs_core_inv_pop (batchSize : Nat) (s : BfsState) (h : bfs_core_inv s) :
    bfs_core_inv
      { s with queue := s.queue.drop batchSize,
               maxDepth := max s.maxDepth (((s.queue.take batchSize).map Prod.snd).foldl max 0),
               fetched := s.fetched ++ [(s.iter, (s.queue.take batchSize).map Prod.fst)] } := by
  obtain ⟨hv, hn, hd⟩ := h
  refine ⟨hv, hn, ?_⟩
  show ((s.fetched ++ [(s.iter, (s.queue.take batchSize).map Prod.fst)]).map
      Prod.snd).flatten ++ (s.queue.drop batchSize).map Prod.fst = s.log.map Prod.fst
  rw [List.map_append, List.flatten_append]
  simp only [List.map_cons, List.map_nil, List.flatten_cons, List.flatten_nil,
    List.append_nil]
  rw [List.append_assoc, ← List.map_append, List.take_append_drop]
  exact hd

theorem bfs_core_inv_iter (s : BfsState) (n : Nat) (h : bfs_core_inv s) :
    bfs_core_inv { s with iter := n } := h

theorem bfs_core_inv_step (batchSize : Nat) (env : Nat → List String → FetchResult)
    (s : BfsState) (h : bfs_core_inv s) :
    bfs_core_inv (bfs_step batchSize env s) := by
  unfold bfs_step
  dsimp only
  rcases henv : env s.iter ((s.queue.take batchSize).map Prod.fst) with svs | ⟨code, msg⟩
  · exact bfs_core_inv_iter _ _
      (bfs_core_inv_process_fold _ _ _ (bfs_core_inv_pop batchSize s h))
  · exact bfs_core_inv_iter _ _ (bfs_core_inv_pop batchSize s h)

theorem bfs_core_inv_loop (batchSize : Nat) (env : Nat → List String → FetchResult)
    (cancel : Nat → Bool) :
    ∀ (fuel : Nat) (s : BfsState), bfs_core_inv s →
      bfs_core_inv (bfs_loop batchSize env cancel fuel s).1 := by
  intro fuel
  induction fuel with
  | zero =>
    intro s h
    rw [bfs_loop]
    split <;> exact h
  | succ fuel ih =>
    intro s h
    rw [bfs_loop]
    by_cases hq : s.queue.isEmpty
    · rw [if_pos hq]; exact h
    · rw [if_neg hq]
      by_cases hc : cancel s.iter
      · rw [if_pos hc]; exact h
      · rw [if_neg hc]
        by_cases hb : (s.queue.take batchSize).isEmpty
        · rw [if_pos hb]; exact h
        · rw [if_neg hb]
          exact ih _ (bfs_core_inv_step batchSize env s h)

theorem bfs_core_inv_seed (root_ids : List String) :
    bfs_core_inv (seed_state root_ids) := by
  unfold seed_state
  have base : bfs_core_inv initState := ⟨rfl, List.nodup_nil, rfl⟩
  generalize initState = s0 at base ⊢
  induction root_ids generalizing s0 with
  | nil => exact base
  | cons rid rest ih =>
    rw [List.foldl_cons]
    apply ih
    by_cases hcond : (rid != "" && !(s0.visited.contains rid)) = true
    · rw [if_pos hcond]
      obtain ⟨hv, hn, hd⟩ := base
      rw [Bool.and_eq_true, Bool.not_eq_true'] at hcond
      have hmem : rid ∉ s0.log.map Prod.fst := by
        rw [← hv]
        intro hmm
        rw [← contains_iff_mem, hcond.2] at hmm
        exact Bool.noConfusion hmm
      refine ⟨?_, ?_, ?_⟩
      · simp [hv]
      · simp only [List.map_append, List.map_cons, List.map_nil]
        rw [List.nodup_append]
        refine ⟨hn, List.nodup_singleton rid, ?_⟩
        intro a ha hat
        rw [List.mem_singleton] at hat
        subst hat
        exact hmem ha
      · simp only [List.map_append, List.map_cons, List.map_nil,
          ← List.append_assoc, hd]
    · rw [if_neg hcond]; exact base

/-- Claim C2: in every traversal run — whatever the backend answers and
whenever cancellation strikes — an id is added to `visited` exactly when it
is enqueued (`visited` equals the enqueue log), no id is ever enqueued twice,
and no id is ever handed to a batch fetch twice. -/
theorem visited_ids_enqueued_once (batchSize fuel : Nat)
    (env : Nat → List String → FetchResult) (cancel : Nat → Bool)
    (root_ids : List String) :
    (bfs_traverse batchSize env cancel fuel root_ids).1.visited
      = ((bfs_traverse batchSize env cancel fuel root_ids).1.log.map Prod.fst) ∧
    ((bfs_traverse batchSize env cancel fuel root_ids).1.log.map Prod.fst).Nodup ∧
    (((bfs_traverse batchSize env cancel fuel root_ids).1.fetched.map Prod.snd).flatten).Nodup := by
  obtain ⟨hv, hn, hd⟩ :=
    bfs_core_inv_loop batchSize env cancel fuel (seed_state root_ids)
      (bfs_core_inv_seed root_ids)
  refine ⟨hv, hn, ?_⟩
  rw [← hd] at hn
  exact (List.nodup_append.mp hn).1

/-! ## Claim C7 — partial-failure tolerance and cancellation -/

theorem enqueue_target_fetched (d : Nat) (s : BfsState) (t : String) :
    (enqueue_target d s t).fetched = s.fetched := by
  unfold enqueue_target; split <;> rfl

theorem enqueue_fold_fetched (d : Nat) (ts : List String) :
    ∀ s : BfsState, (ts.foldl (enqueue_target d) s).fetched = s.fetched := by
  induction ts with
  | nil => intro s; rfl
  | cons t ts ih =>
    intro s
    rw [List.foldl_cons, ih, enqueue_target_fetched]

theorem process_service_fetched (batch : List (String × Nat)) (s : BfsState)
    (sv : ServiceEntity) : (process_service batch s sv).fetched = s.fetched := by
  unfold process_service
  rw [enqueue_fold_fetched]

theorem process_fold_fetched (batch : List (String × Nat)) (svs : List ServiceEntity) :
    ∀ s : BfsState, (svs.foldl (process_service batch) s).fetched = s.fetched := by
  induction svs with
  | nil => intro s; rfl
  | cons sv svs ih =>
    intro s
    rw [List.foldl_cons, ih, process_service_fetched]

/-- Every loop iteration records exactly one attempted batch, fetch success
or not. -/
theorem bfs_step_fetched (batchSize : Nat) (env : Nat → List String → FetchResult)
    (s : BfsState) :
    (bfs_step batchSize env s).fetched
      = s.fetched ++ [(s.iter, (s.queue.take batchSize).map Prod.fst)] := by
  unfold bfs_step
  dsimp only
  rcases env s.iter ((s.queue.take batchSize).map Prod.fst) with svs | ⟨code, msg⟩
  · show (svs.foldl (process_service (s.queue.take batchSize)) _).fetched = _
    rw [process_fold_fetched]
  · rfl

/-- With the cancellation flag never set, the loop never ends `cancelled`. -/
theorem bfs_loop_no_cancel (batchSize : Nat) (env : Nat → List String → FetchResult)
    (cancel : Nat → Bool) (hc : ∀ i, cancel i = false) :
    ∀ (fuel : Nat) (s : BfsState),
      (bfs_loop batchSize env cancel fuel s).2 ≠ .cancelled := by
  intro fuel
  induction fuel with
  | zero =>
    intro s
    rw [bfs_loop]
    split <;> simp
  | succ fuel ih =>
    intro s
    rw [bfs_loop]
    by_cases hq : s.queue.isEmpty
    · rw [if_pos hq]; simp
    · rw [if_neg hq, hc s.iter]
      simp only [Bool.false_eq_true, if_false]
      by_cases hb : (s.queue.take batchSize).isEmpty
      · rw [if_pos hb]; simp
      · rw [if_neg hb]
        exact ih (bfs_step batchSize env s)

/-- With a positive batch size the loop, unless the fuel artifact intervenes,
ends either cancelled or with a drained queue. -/
theorem bfs_loop_drains (batchSize : Nat) (env : Nat → List String → FetchResult)
    (cancel : Nat → Bool) (hbs : 0 < batchSize) :
    ∀ (fuel : Nat) (s : BfsState),
      (bfs_loop batchSize env cancel fuel s).2 = .cancelled ∨
      (bfs_loop batchSize env cancel fuel s).2 = .fuelOut ∨
      (bfs_loop batchSize env cancel fuel s).1.queue = [] := by
  intro fuel
  induction fuel with
  | zero =>
    intro s
    rw [bfs_loop]
    by_cases hq : s.queue.isEmpty
    · rw [if_pos hq]
      right; right
      exact List.isEmpty_iff.mp hq
    · rw [if_neg hq]
      right; left; rfl
  | succ fuel ih =>
    intro s
    rw [bfs_loop]
    by_cases hq : s.queue.isEmpty
    · rw [if_pos hq]
      right; right
      exact List.isEmpty_iff.mp hq
    · rw [if_neg hq]
      by_cases hcan : cancel s.iter
      · rw [if_pos hcan]; left; rfl
      · rw [if_neg hcan]
        by_cases hb : (s.queue.take batchSize).isEmpty
        · exfalso
          rw [List.isEmpty_iff, List.take_eq_nil_iff] at hb
          rcases hb with hb | hb
          · omega
          · rw [List.isEmpty_iff] at hq; exact hq hb
        · rw [if_neg hb]
          exact ih (bfs_step batchSize env s)

/-- A batch is only ever attempted at an iteration where the flag was down. -/
theorem bfs_loop_fetched_flag (batchSize : Nat) (env : Nat → List String → FetchResult)
    (cancel : Nat → Bool) :
    ∀ (fuel : Nat) (s : BfsState),
      (∀ e ∈ s.fetched, cancel e.1 = false) →
      ∀ e ∈ (bfs_loop batchSize env cancel fuel s).1.fetched, cancel e.1 = false := by
  intro fuel
  induction fuel with
  | zero =>
    intro s h
    rw [bfs_loop]
    split <;> exact h
  | succ fuel ih =>
    intro s h
    rw [bfs_loop]
    by_cases hq : s.queue.isEmpty
    · rw [if_pos hq]; exact h
    · rw [if_neg hq]
      by_cases hcan : cancel s.iter
      · rw [if_pos hcan]; exact h
      · rw [if_neg hcan]
        by_cases hb : (s.queue.take batchSize).isEmpty
        · rw [if_pos hb]; exact h
        · rw [if_neg hb]
          apply ih
          rw [bfs_step_fetched]
          intro e he
          rw [List.mem_append] at he
          rcases he with he | he
          · exact h e he
          · rw [List.mem_singleton] at he
            subst he
            rwa [Bool.not_eq_true] at hcan

theorem seed_state_fetched (root_ids : List String) :
    (seed_state root_ids).fetched = [] := by
  unfold seed_state
  have base : initState.fetched = [] := rfl
  generalize initState = s0 at base ⊢
  induction root_ids generalizing s0 with
  | nil => exact base
  | cons rid rest ih =>
    rw [List.foldl_cons]
    apply ih
    by_cases hcond : (rid != "" && !(s0.visited.contains rid)) = true
    · rw [if_pos hcond]; exact base
    · rw [if_neg hcond]; exact base

/-- Claim C7 (amended): (a) if the cancellation flag never trips, the run
never ends `Cancelled`, and a completed run has drained its queue and
attempted a batch fetch for every enqueued id — even when some batch fetches
raised API errors, which are logged and skipped (the in-fetch cancellation
error is caught by the same handler and skipped like any other error, it
does not propagate); (b) once the flag is set (from iteration i₀ on — the
flag is never unset during a run), no batch is attempted at any iteration
≥ i₀ and the run, fuel artifact aside, either ends `Cancelled` via the
loop-head flag check or had already drained its queue, in which case it
completes normally. -/
theorem batch_error_tolerance_and_cancellation (batchSize fuel i₀ : Nat)
    (env : Nat → List String → FetchResult) (cancel : Nat → Bool)
    (root_ids : List String) (hbs : 0 < batchSize) :
    ((∀ i, cancel i = false) →
      (bfs_traverse batchSize env cancel fuel root_ids).2 ≠ .cancelled ∧
      (∀ d, (bfs_traverse batchSize env cancel fuel root_ids).2 = .completed d →
        (bfs_traverse batchSize env cancel fuel root_ids).1.queue = [] ∧
        ((bfs_traverse batchSize env cancel fuel root_ids).1.fetched.map Prod.snd).flatten
          = (bfs_traverse batchSize env cancel fuel root_ids).1.log.map Prod.fst)) ∧
    ((∀ j, i₀ ≤ j → cancel j = true) →
      (∀ e ∈ (bfs_traverse batchSize env cancel fuel root_ids).1.fetched, e.1 < i₀) ∧
      ((bfs_traverse batchSize env cancel fuel root_ids).2 ≠ .fuelOut →
        (bfs_traverse batchSize env cancel fuel root_ids).2 = .cancelled ∨
        (bfs_traverse batchSize env cancel fuel root_ids).1.queue = [])) := by
  unfold bfs_traverse
  constructor
  · intro hcf
    refine ⟨bfs_loop_no_cancel batchSize env cancel hcf fuel (seed_state root_ids), ?_⟩
    intro d hdone
    have hqe : (bfs_loop batchSize env cancel fuel (seed_state root_ids)).1.queue = [] := by
      rcases bfs_loop_drains batchSize env cancel hbs fuel (seed_state root_ids)
        with h | h | h
      · rw [hdone] at h; exact BfsOutcome.noConfusion h
      · rw [hdone] at h; exact BfsOutcome.noConfusion h
      · exact h
    refine ⟨hqe, ?_⟩
    obtain ⟨hv, hn, hd⟩ :=
      bfs_core_inv_loop batchSize env cancel fuel (seed_state root_ids)
        (bfs_core_inv_seed root_ids)
    rw [hqe] at hd
    simpa using hd
  · intro hct
    constructor
    · intro e he
      have hcf : cancel e.1 = false := by
        apply bfs_loop_fetched_flag batchSize env cancel fuel (seed_state root_ids)
          _ e he
        rw [seed_state_fetched]
        intro e' he'
        cases he'
      by_contra hge
      rw [Nat.not_lt] at hge
      rw [hct e.1 hge] at hcf
      exact Bool.noConfusion hcf
    · intro hnf
      rcases bfs_loop_drains batchSize env cancel hbs fuel (seed_state root_ids)
        with h | h | h
      · exact Or.inl h
      · exact absurd h hnf
      · exact Or.inr h

/-- A backend whose first batch fetch fails with a server error and answers
every later fetch with the requested `lineGraph` nodes. -/
def flakyEnv : Nat → List String → FetchResult :=
  fun i ids => if i == 0 then .err 503 "Internal Server Error" else .ok (ids.map lineGraph)

/-- Witness for C7: part (a) at a backend whose first batch errors (batch
size 1, roots A and B, so the second batch is still processed after the first
fails); part (b) at the flag set from iteration 1 on. -/
theorem batch_error_tolerance_and_cancellation_witness :
    ((bfs_traverse 1 flakyEnv neverCancel 5 ["A", "B"]).2 ≠ .cancelled ∧
      (∀ d, (bfs_traverse 1 flakyEnv neverCancel 5 ["A", "B"]).2 = .completed d →
        (bfs_traverse 1 flakyEnv neverCancel 5 ["A", "B"]).1.queue = [] ∧
        ((bfs_traverse 1 flakyEnv neverCancel 5 ["A", "B"]).1.fetched.map Prod.snd).flatten
          = (bfs_traverse 1 flakyEnv neverCancel 5 ["A", "B"]).1.log.map Prod.fst)) ∧
    ((∀ e ∈ (bfs_traverse 50 lineEnv cancelAfterFirst 5 ["A"]).1.fetched, e.1 < 1) ∧
      ((bfs_traverse 50 lineEnv cancelAfterFirst 5 ["A"]).2 ≠ .fuelOut →
        (bfs_traverse 50 lineEnv cancelAfterFirst 5 ["A"]).2 = .cancelled ∨
        (bfs_traverse 50 lineEnv cancelAfterFirst 5 ["A"]).1.queue = [])) :=
  ⟨(batch_error_tolerance_and_cancellation 1 5 1 flakyEnv neverCancel ["A", "B"]
      (by norm_num)).1 (fun i => rfl),
   (batch_error_tolerance_and_cancellation 50 5 1 lineEnv cancelAfterFirst ["A"]
      (by norm_num)).2 (fun j hj => by simp [cancelAfterFirst, hj])⟩

/-- A cancellation flag that trips during the iteration-0 batch fetch: still
down at the iteration-0 loop head, up from iteration 1 on. -/
def trippedDuringFetch : Nat → Bool := fun i => decide (1 ≤ i)

/-- A backend whose fetch observes the tripped flag and raises the client's
in-fetch cancellation error (`_execute_with_retry`'s per-attempt check). -/
def cancErrEnv : Nat → List String → FetchResult :=
  fun _ _ => .err 0 "Operation cancelled by user"

/-- The in-fetch cancellation error does not propagate: the catch-all batch
handler of `_bfs_traverse` catches it like any other `DynatraceAPIError` and
skips the batch.  With a single root the cancelled fetch drains the last
batch, so the loop head — the only place that raises `Cancelled` — never
runs with the flag up and a non-empty queue: the run ends `completed`, not
`cancelled`, even though the flag is set from iteration 1 on and the fetch
raised the cancellation error.  This refutes the reading that an in-fetch
cancellation terminates the run in the Cancelled state. -/
theorem in_fetch_cancellation_not_propagated :
    trippedDuringFetch 1 = true ∧
    cancErrEnv 0 ["A"] = .err 0 "Operation cancelled by user" ∧
    (bfs_traverse 50 cancErrEnv trippedDuringFetch 3 ["A"]).2
      = BfsOutcome.completed 0 :=
  ⟨rfl, rfl, rfl⟩

/-! ## Claim C3 — BFS depths are shortest distances

The following development proves that, for a completed run against a backend
that answers every batch fetch with exactly the requested nodes, the depth at
which each node was enqueued equals the minimum number of call-hops from any
root.  The invariant is phrased over the enqueue log: the queue is always a
suffix of the log (`queueEq`), log depths are nondecreasing (`sorted`), and
during batch processing every logged depth is bounded by the batch cap
(`capBnd`) while remaining queue entries sit at or above it (`qLB`). -/

/-- Node `e` has been fully expanded in `s`: each of its call targets is
logged at a depth at most one deeper. -/
def closureAt (adj : String → List String) (s : BfsState) (e : String × Nat) : Prop :=
  ∀ t ∈ adj e.1, ∃ dt, (t, dt) ∈ s.log ∧ dt ≤ e.2 + 1

theorem closureAt_mono (adj : String → List String) (s s' : BfsState)
    (hmono : ∀ e ∈ s.log, e ∈ s'.log) (e : String × Nat)
    (h : closureAt adj s e) : closureAt adj s' e := by
  intro t ht
  obtain ⟨dt, hdt, hle⟩ := h t ht
  exact ⟨dt, hmono _ hdt, hle⟩

/-- The mid-batch invariant, relative to the pop point `p'` (the log index
past the current batch) and the batch depth cap `dK`. -/
structure MidInv (adj : String → List String) (roots : List String)
    (p' dK : Nat) (s : BfsState) : Prop where
  visEq : s.visited = s.log.map Prod.fst
  nodup : (s.log.map Prod.fst).Nodup
  queueEq : s.queue = s.log.drop p'
  pLe : p' ≤ s.log.length
  sorted : List.Pairwise (· ≤ ·) (s.log.map Prod.snd)
  sound : ∀ e ∈ s.log, reachN adj roots e.2 e.1
  capBnd : ∀ e ∈ s.log, e.2 ≤ dK + 1
  qLB : ∀ q ∈ s.queue, dK ≤ q.2
  rootMem : ∀ r ∈ roots, (r, 0) ∈ s.log

theorem nodup_snoc_ids (log : List (String × Nat)) (t : String) (d : Nat)
    (hn : (log.map Prod.fst).Nodup) (hmem : t ∉ log.map Prod.fst) :
    ((log ++ [(t, d)]).map Prod.fst).Nodup := by
  simp only [List.map_append, List.map_cons, List.map_nil]
  rw [List.nodup_append]
  refine ⟨hn, List.nodup_singleton t, ?_⟩
  intro a ha hat
  rw [List.mem_singleton] at hat
  subst hat
  exact hmem ha

/-- One target enqueue preserves the mid-batch invariant, keeps the log
depth-bounded by `d1`, only extends the log, and leaves the target logged at
depth at most `d1`. -/
theorem enqueue_good (adj : String → List String) (roots : List String)
    (p' dK d1 : Nat) (s : BfsState) (t : String)
    (inv : MidInv adj roots p' dK s)
    (hLB : ∀ e ∈ s.log, e.2 ≤ d1)
    (hdk1 : dK ≤ d1) (hdk2 : d1 ≤ dK + 1)
    (hreach : reachN adj roots d1 t) :
    MidInv adj roots p' dK (enqueue_target d1 s t) ∧
    (∀ e ∈ s.log, e ∈ (enqueue_target d1 s t).log) ∧
    (∀ e ∈ (enqueue_target d1 s t).log, e.2 ≤ d1) ∧
    (∃ dt, (t, dt) ∈ (enqueue_target d1 s t).log ∧ dt ≤ d1) := by
  unfold enqueue_target
  by_cases hc : s.visited.contains t = true
  · rw [if_pos hc]
    refine ⟨inv, fun e he => he, hLB, ?_⟩
    rw [contains_iff_mem, inv.visEq, List.mem_map] at hc
    obtain ⟨e, he, het⟩ := hc
    refine ⟨e.2, ?_, hLB e he⟩
    have : (t, e.2) = e := by
      rw [← het]
    rw [this]
    exact he
  · rw [if_neg hc]
    rw [contains_iff_mem, inv.visEq] at hc
    have hlen : (s.log ++ [(t, d1)]).length = s.log.length + 1 := by
      simp
    refine ⟨⟨?_, ?_, ?_, ?_, ?_, ?_, ?_, ?_, ?_⟩, ?_, ?_, ?_⟩
    · show s.visited ++ [t] = (s.log ++ [(t, d1)]).map Prod.fst
      simp [inv.visEq]
    · exact nodup_snoc_ids s.log t d1 inv.nodup hc
    · show s.queue ++ [(t, d1)] = (s.log ++ [(t, d1)]).drop p'
      rw [List.drop_append_of_le_length inv.pLe, inv.queueEq]
    · show p' ≤ (s.log ++ [(t, d1)]).length
      rw [hlen]
      exact Nat.le_succ_of_le inv.pLe
    · show List.Pairwise (· ≤ ·) ((s.log ++ [(t, d1)]).map Prod.snd)
      simp only [List.map_append, List.map_cons, List.map_nil]
      rw [List.pairwise_append]
      refine ⟨inv.sorted, List.pairwise_singleton _ _, ?_⟩
      intro a ha b hb
      rw [List.mem_singleton] at hb
      subst hb
      rw [List.mem_map] at ha
      obtain ⟨e, he, hea⟩ := ha
      rw [← hea]
      exact hLB e he
    · intro e he
      rw [List.mem_append] at he
      rcases he with he | he
      · exact inv.sound e he
      · rw [List.mem_singleton] at he
        subst he
        exact hreach
    · intro e he
      rw [List.mem_append] at he
      rcases he with he | he
      · exact inv.capBnd e he
      · rw [List.mem_singleton] at he
        subst he
        exact hdk2
    · intro q hq
      rw [List.mem_append] at hq
      rcases hq with hq | hq
      · exact inv.qLB q hq
      · rw [List.mem_singleton] at hq
        subst hq
        exact hdk1
    · intro r hr
      exact List.mem_append_left _ (inv.rootMem r hr)
    · intro e he
      exact List.mem_append_left _ he
    · intro e he
      rw [List.mem_append] at he
      rcases he with he | he
      · exact hLB e he
      · rw [List.mem_singleton] at he
        subst he
        exact le_rfl
    · exact ⟨d1, List.mem_append_right _ (List.mem_singleton.mpr rfl), le_rfl⟩

/-- Folding the enqueues of a whole target list. -/
theorem enqueue_fold_good (adj : String → List String) (roots : List String)
    (p' dK d1 : Nat) (hdk1 : dK ≤ d1) (hdk2 : d1 ≤ dK + 1) :
    ∀ (ts : List String) (s : BfsState),
      MidInv adj roots p' dK s →
      (∀ e ∈ s.log, e.2 ≤ d1) →
      (∀ t ∈ ts, reachN adj roots d1 t) →
      MidInv adj roots p' dK (ts.foldl (enqueue_target d1) s) ∧
      (∀ e ∈ s.log, e ∈ (ts.foldl (enqueue_target d1) s).log) ∧
      (∀ e ∈ (ts.foldl (enqueue_target d1) s).log, e.2 ≤ d1) ∧
      (∀ t ∈ ts, ∃ dt, (t, dt) ∈ (ts.foldl (enqueue_target d1) s).log ∧ dt ≤ d1) := by
  intro ts
  induction ts with
  | nil =>
    intro s inv hLB _
    exact ⟨inv, fun e he => he, hLB, by intro t ht; cases ht⟩
  | cons t ts ih =>
    intro s inv hLB hreach
    rw [List.foldl_cons]
    obtain ⟨inv1, hmono1, hLB1, hcov1⟩ :=
      enqueue_good adj roots p' dK d1 s t inv hLB hdk1 hdk2
        (hreach t (List.mem_cons_self t ts))
    obtain ⟨inv2, hmono2, hLB2, hcov2⟩ :=
      ih (enqueue_target d1 s t) inv1 hLB1
        (fun u hu => hreach u (List.mem_cons_of_mem t hu))
    refine ⟨inv2, fun e he => hmono2 _ (hmono1 _ he), hLB2, ?_⟩
    intro u hu
    rw [List.mem_cons] at hu
    rcases hu with hu | hu
    · subst hu
      obtain ⟨dt, hdt, hle⟩ := hcov1
      exact ⟨dt, hmono2 _ hdt, hle⟩
    · exact hcov2 u hu

/-- With duplicate-free batch ids, the `service_depth` scan finds the batch
entry's own depth. -/
theorem lookup_depth_eq :
    ∀ (l : List (String × Nat)), (l.map Prod.fst).Nodup →
      ∀ e ∈ l, lookup_depth l e.1 = e.2 := by
  intro l
  induction l with
  | nil => intro _ e he; cases he
  | cons b l ih =>
    intro hn e he
    rw [List.map_cons, List.nodup_cons] at hn
    rw [List.mem_cons] at he
    rcases he with he | he
    · subst he
      unfold lookup_depth
      rw [List.find?_cons_of_pos _ (by simp)]
    · have hne : (b.1 == e.1) = false := by
        rw [beq_eq_false_iff_ne]
        intro hb
        exact hn.1 (hb ▸ List.mem_map_of_mem Prod.fst he)
      unfold lookup_depth
      rw [List.find?_cons_of_neg _ (by simp [hne])]
      exact ih hn.2 e he

theorem MidInv_services (adj : String → List String) (roots : List String)
    (p' dK : Nat) (s : BfsState) (m : List (String × ServiceEntity))
    (inv : MidInv adj roots p' dK s) :
    MidInv adj roots p' dK { s with services := m } :=
  ⟨inv.visEq, inv.nodup, inv.queueEq, inv.pLe, inv.sorted, inv.sound,
   inv.capBnd, inv.qLB, inv.rootMem⟩

theorem MidInv_iter (adj : String → List String) (roots : List String)
    (p' dK : Nat) (s : BfsState) (n : Nat)
    (inv : MidInv adj roots p' dK s) :
    MidInv adj roots p' dK { s with iter := n } :=
  ⟨inv.visEq, inv.nodup, inv.queueEq, inv.pLe, inv.sorted, inv.sound,
   inv.capBnd, inv.qLB, inv.rootMem⟩

/-- Processing one returned service preserves the mid-batch invariant and
fully expands the corresponding batch entry. -/
theorem process_service_good (adj : String → List String) (roots : List String)
    (g : String → ServiceEntity)
    (hg : ∀ eid, (g eid).entity_id = eid)
    (hadj : ∀ v, (g v).calls = adj v)
    (batch : List (String × Nat)) (p' dK : Nat)
    (e : String × Nat) (s : BfsState)
    (inv : MidInv adj roots p' dK s)
    (hLB : ∀ x ∈ s.log, x.2 ≤ e.2 + 1)
    (hcap : e.2 ≤ dK) (hlow : dK ≤ e.2 + 1)
    (hlk : lookup_depth batch e.1 = e.2)
    (hsound : reachN adj roots e.2 e.1) :
    MidInv adj roots p' dK (process_service batch s (g e.1)) ∧
    (∀ x ∈ s.log, x ∈ (process_service batch s (g e.1)).log) ∧
    (∀ x ∈ (process_service batch s (g e.1)).log, x.2 ≤ e.2 + 1) ∧
    closureAt adj (process_service batch s (g e.1)) e := by
  unfold process_service
  dsimp only
  rw [hg, hlk, hadj]
  obtain ⟨inv', hmono, hLB', hcov⟩ :=
    enqueue_fold_good adj roots p' dK (e.2 + 1) hlow (by omega) (adj e.1)
      { s with services := upsert_service s.services (g e.1) }
      (MidInv_services adj roots p' dK s _ inv)
      hLB
      (fun t ht => ⟨e.1, hsound, ht⟩)
  exact ⟨inv', hmono, hLB', fun t ht => hcov t ht⟩

/-- Processing a whole batch: every batch entry ends up fully expanded, and
the invariant survives with the same pop point and cap. -/
theorem process_fold_good (adj : String → List String) (roots : List String)
    (g : String → ServiceEntity)
    (hg : ∀ eid, (g eid).entity_id = eid)
    (hadj : ∀ v, (g v).calls = adj v)
    (batch : List (String × Nat)) (p' dK : Nat) :
    ∀ (todo : List (String × Nat)) (s : BfsState),
      MidInv adj roots p' dK s →
      (∀ e ∈ todo, lookup_depth batch e.1 = e.2 ∧ e.2 ≤ dK ∧ dK ≤ e.2 + 1 ∧
        reachN adj roots e.2 e.1) →
      (∀ x ∈ s.log, ∀ j ∈ todo, x.2 ≤ j.2 + 1) →
      List.Pairwise (fun a b : String × Nat => a.2 ≤ b.2) todo →
      MidInv adj roots p' dK
        (todo.foldl (fun st e => process_service batch st (g e.1)) s) ∧
      (∀ x ∈ s.log,
        x ∈ (todo.foldl (fun st e => process_service batch st (g e.1)) s).log) ∧
      (∀ e ∈ todo,
        closureAt adj (todo.foldl (fun st e => process_service batch st (g e.1)) s) e) := by
  intro todo
  induction todo with
  | nil =>
    intro s inv _ _ _
    exact ⟨inv, fun x hx => hx, by intro e he; cases he⟩
  | cons e todo ih =>
    intro s inv hfacts hLB hsrt
    rw [List.foldl_cons]
    obtain ⟨hlk, hcap, hlow, hsound⟩ := hfacts e (List.mem_cons_self e todo)
    obtain ⟨inv1, hmono1, hLB1, hclos1⟩ :=
      process_service_good adj roots g hg hadj batch p' dK e s inv
        (fun x hx => hLB x hx e (List.mem_cons_self e todo)) hcap hlow hlk hsound
    rw [List.pairwise_cons] at hsrt
    obtain ⟨inv2, hmono2, hclos2⟩ :=
      ih (process_service batch s (g e.1)) inv1
        (fun j hj => hfacts j (List.mem_cons_of_mem e hj))
        (fun x hx j hj =>
          le_trans (hLB1 x hx) (Nat.succ_le_succ (hsrt.1 j hj)))
        hsrt.2
    refine ⟨inv2, fun x hx => hmono2 _ (hmono1 _ hx), ?_⟩
    intro j hj
    rw [List.mem_cons] at hj
    rcases hj with hj | hj
    · subst hj
      exact closureAt_mono adj _ _ hmono2 j hclos1
    · exact hclos2 j hj

theorem enqueue_target_log_prefix (d : Nat) (s : BfsState) (t : String) :
    ∃ ext, (enqueue_target d s t).log = s.log ++ ext := by
  unfold enqueue_target
  by_cases hc : s.visited.contains t = true
  · rw [if_pos hc]; exact ⟨[], by simp⟩
  · rw [if_neg hc]; exact ⟨[(t, d)], rfl⟩

theorem enqueue_fold_log_prefix (d : Nat) :
    ∀ (ts : List String) (s : BfsState),
      ∃ ext, (ts.foldl (enqueue_target d) s).log = s.log ++ ext := by
  intro ts
  induction ts with
  | nil => intro s; exact ⟨[], by simp⟩
  | cons t ts ih =>
    intro s
    rw [List.foldl_cons]
    obtain ⟨e1, he1⟩ := enqueue_target_log_prefix d s t
    obtain ⟨e2, he2⟩ := ih (enqueue_target d s t)
    exact ⟨e1 ++ e2, by rw [he2, he1, List.append_assoc]⟩

theorem process_service_log_prefix (batch : List (String × Nat)) (s : BfsState)
    (sv : ServiceEntity) :
    ∃ ext, (process_service batch s sv).log = s.log ++ ext := by
  unfold process_service
  exact enqueue_fold_log_prefix _ _ _

theorem process_fold_log_prefix (batch : List (String × Nat))
    (g : String → ServiceEntity) :
    ∀ (todo : List (String × Nat)) (s : BfsState),
      ∃ ext, ((todo.foldl (fun st e => process_service batch st (g e.1)) s)).log
        = s.log ++ ext := by
  intro todo
  induction todo with
  | nil => intro s; exact ⟨[], by simp⟩
  | cons e todo ih =>
    intro s
    rw [List.foldl_cons]
    obtain ⟨e1, he1⟩ := process_service_log_prefix batch s (g e.1)
    obtain ⟨e2, he2⟩ := ih (process_service batch s (g e.1))
    exact ⟨e1 ++ e2, by rw [he2, he1, List.append_assoc]⟩

theorem foldl_max_le (l : List Nat) : ∀ i, (∀ a ∈ l, a ≤ l.foldl max i) ∧ i ≤ l.foldl max i := by
  induction l with
  | nil => intro i; exact ⟨(by intro a ha; cases ha), le_rfl⟩
  | cons b l ih =>
    intro i
    rw [List.foldl_cons]
    obtain ⟨h1, h2⟩ := ih (max i b)
    refine ⟨?_, le_trans (le_max_left i b) h2⟩
    intro a ha
    rw [List.mem_cons] at ha
    rcases ha with ha | ha
    · subst ha; exact le_trans (le_max_right i a) h2
    · exact h1 a ha

theorem foldl_max_mem (l : List Nat) (h : l ≠ []) : l.foldl max 0 ∈ l := by
  cases l with
  | nil => exact absurd rfl h
  | cons a t =>
    rw [List.foldl_cons, Nat.zero_max]
    clear h
    induction t generalizing a with
    | nil => exact List.mem_singleton.mpr rfl
    | cons b t ih =>
      rw [List.foldl_cons]
      rcases max_choice a b with hm | hm <;> rw [hm]
      · rcases List.mem_cons.mp (ih a) with hh | hh
        · rw [hh]; exact List.mem_cons_self _ _
        · exact List.mem_cons_of_mem _ (List.mem_cons_of_mem _ hh)
      · exact List.mem_cons_of_mem _ (ih b)

/-- The outer (between-batches) invariant of the traversal loop. -/
structure GoodState (adj : String → List String) (roots : List String)
    (s : BfsState) (p : Nat) : Prop where
  visEq : s.visited = s.log.map Prod.fst
  nodup : (s.log.map Prod.fst).Nodup
  queueEq : s.queue = s.log.drop p
  pLe : p ≤ s.log.length
  sorted : List.Pairwise (· ≤ ·) (s.log.map Prod.snd)
  sound : ∀ e ∈ s.log, reachN adj roots e.2 e.1
  bound : ∀ e ∈ s.log, ∀ q ∈ s.queue, e.2 ≤ q.2 + 1
  closure : ∀ e ∈ s.log.take p, closureAt adj s e
  rootMem : ∀ r ∈ roots, (r, 0) ∈ s.log

/-- One batch iteration against a faithful backend preserves the outer
invariant, advancing the pop point past the batch. -/
theorem bfs_step_good (adj : String → List String) (roots : List String)
    (g : String → ServiceEntity)
    (hg : ∀ eid, (g eid).entity_id = eid)
    (hadj : ∀ v, (g v).calls = adj v)
    (batchSize : Nat) (env : Nat → List String → FetchResult)
    (henv : ∀ i ids, env i ids = .ok (ids.map g))
    (s : BfsState) (p : Nat)
    (good : GoodState adj roots s p)
    (hbne : s.queue.take batchSize ≠ []) :
    GoodState adj roots (bfs_step batchSize env s)
      (p + (s.queue.take batchSize).length) := by
  have F0 := good.queueEq
  have hkmin : (s.queue.take batchSize).length = min batchSize (s.log.length - p) := by
    rw [F0, List.length_take, List.length_drop]
  have hQsubL : ∀ e ∈ s.queue, e ∈ s.log := by
    intro e he
    rw [F0] at he
    exact List.mem_of_mem_drop he
  have hBsubQ : ∀ e ∈ s.queue.take batchSize, e ∈ s.queue :=
    fun e he => List.mem_of_mem_take he
  have hBsubL : ∀ e ∈ s.queue.take batchSize, e ∈ s.log :=
    fun e he => hQsubL e (hBsubQ e he)
  have hBsl : (s.queue.take batchSize).Sublist s.log := by
    rw [F0]
    exact (List.take_sublist _ _).trans (List.drop_sublist _ _)
  have hBnodup : ((s.queue.take batchSize).map Prod.fst).Nodup :=
    List.Nodup.sublist (hBsl.map Prod.fst) good.nodup
  have hLpair : List.Pairwise (fun a b : String × Nat => a.2 ≤ b.2) s.log :=
    (List.pairwise_map).mp good.sorted
  have hBpair : List.Pairwise (fun a b : String × Nat => a.2 ≤ b.2)
      (s.queue.take batchSize) :=
    List.Pairwise.sublist hBsl hLpair
  obtain ⟨bstar, hbmem, hbdk⟩ :
      ∃ b ∈ s.queue.take batchSize,
        b.2 = ((s.queue.take batchSize).map Prod.snd).foldl max 0 := by
    have hmm := foldl_max_mem ((s.queue.take batchSize).map Prod.snd)
      (by simpa using hbne)
    rw [List.mem_map] at hmm
    obtain ⟨b, hb, hbe⟩ := hmm
    exact ⟨b, hb, hbe⟩
  have hdkmax : ∀ e ∈ s.queue.take batchSize,
      e.2 ≤ ((s.queue.take batchSize).map Prod.snd).foldl max 0 :=
    fun e he => (foldl_max_le _ 0).1 e.2 (List.mem_map_of_mem Prod.snd he)
  have hcap : ∀ e ∈ s.log,
      e.2 ≤ ((s.queue.take batchSize).map Prod.snd).foldl max 0 + 1 := by
    intro e he
    rw [← hbdk]
    exact good.bound e he bstar (hBsubQ bstar hbmem)
  have hQpairFull : List.Pairwise (fun a b : String × Nat => a.2 ≤ b.2)
      (s.queue.take batchSize ++ s.queue.drop batchSize) := by
    rw [List.take_append_drop]
    rw [F0]
    exact List.Pairwise.sublist (List.drop_sublist _ _) hLpair
  have hqlb : ∀ q ∈ s.queue.drop batchSize,
      ((s.queue.take batchSize).map Prod.snd).foldl max 0 ≤ q.2 := by
    intro q hq
    rw [← hbdk]
    exact (List.pairwise_append.mp hQpairFull).2.2 bstar hbmem q hq
  have hdk_le : ∀ j ∈ s.queue.take batchSize,
      ((s.queue.take batchSize).map Prod.snd).foldl max 0 ≤ j.2 + 1 := by
    intro j hj
    rw [← hbdk]
    exact good.bound bstar (hBsubL bstar hbmem) j (hBsubQ j hj)
  have hrest : s.queue.drop batchSize
      = s.log.drop (p + (s.queue.take batchSize).length) := by
    by_cases hcase : batchSize ≤ s.log.length - p
    · have hkb : (s.queue.take batchSize).length = batchSize := by
        rw [hkmin]; omega
      rw [hkb, F0, List.drop_drop]
    · have h2 : s.log.length ≤ p + (s.queue.take batchSize).length := by
        rw [hkmin]; omega
      rw [List.drop_eq_nil_iff.mpr h2, List.drop_eq_nil_iff, F0, List.length_drop]
      omega
  have hpLe' : p + (s.queue.take batchSize).length ≤ s.log.length := by
    have := good.pLe
    rw [hkmin]
    omega
  have htake : s.log.take (p + (s.queue.take batchSize).length)
      = s.log.take p ++ s.queue.take batchSize := by
    rw [List.take_add]
    congr 1
    rw [← F0, List.take_eq_take, hkmin, F0, List.length_drop]
    omega
  have hstep : bfs_step batchSize env s
      = { (((s.queue.take batchSize).map Prod.fst).map g).foldl
            (process_service (s.queue.take batchSize))
            { s with queue := s.queue.drop batchSize,
                     maxDepth := max s.maxDepth
                       (((s.queue.take batchSize).map Prod.snd).foldl max 0),
                     fetched := s.fetched ++
                       [(s.iter, (s.queue.take batchSize).map Prod.fst)] }
          with iter := s.iter + 1 } := by
    unfold bfs_step
    dsimp only
    rw [henv s.iter ((s.queue.take batchSize).map Prod.fst)]
  have hfold : (((s.queue.take batchSize).map Prod.fst).map g).foldl
        (process_service (s.queue.take batchSize))
        { s with queue := s.queue.drop batchSize,
                 maxDepth := max s.maxDepth
                   (((s.queue.take batchSize).map Prod.snd).foldl max 0),
                 fetched := s.fetched ++
                   [(s.iter, (s.queue.take batchSize).map Prod.fst)] }
      = (s.queue.take batchSize).foldl
          (fun st e => process_service (s.queue.take batchSize) st (g e.1))
          { s with queue := s.queue.drop batchSize,
                   maxDepth := max s.maxDepth
                     (((s.queue.take batchSize).map Prod.snd).foldl max 0),
                   fetched := s.fetched ++
                     [(s.iter, (s.queue.take batchSize).map Prod.fst)] } := by
    rw [List.foldl_map, List.foldl_map]
  have midinv : MidInv adj roots (p + (s.queue.take batchSize).length)
      (((s.queue.take batchSize).map Prod.snd).foldl max 0)
      { s with queue := s.queue.drop batchSize,
               maxDepth := max s.maxDepth
                 (((s.queue.take batchSize).map Prod.snd).foldl max 0),
               fetched := s.fetched ++
                 [(s.iter, (s.queue.take batchSize).map Prod.fst)] } :=
    ⟨good.visEq, good.nodup, hrest, hpLe', good.sorted, good.sound, hcap, hqlb,
     good.rootMem⟩
  obtain ⟨postInv, postMono, postClos⟩ :=
    process_fold_good adj roots g hg hadj (s.queue.take batchSize)
      (p + (s.queue.take batchSize).length)
      (((s.queue.take batchSize).map Prod.snd).foldl max 0)
      (s.queue.take batchSize) _ midinv
      (fun e he =>
        ⟨lookup_depth_eq (s.queue.take batchSize) hBnodup e he,
         hdkmax e he, hdk_le e he, good.sound e (hBsubL e he)⟩)
      (fun x hx j hj => good.bound x hx j (hBsubQ j hj))
      hBpair
  obtain ⟨ext, hext⟩ :=
    process_fold_log_prefix (s.queue.take batchSize) g (s.queue.take batchSize)
      { s with queue := s.queue.drop batchSize,
               maxDepth := max s.maxDepth
                 (((s.queue.take batchSize).map Prod.snd).foldl max 0),
               fetched := s.fetched ++
                 [(s.iter, (s.queue.take batchSize).map Prod.fst)] }
  rw [hstep, hfold]
  refine ⟨postInv.visEq, postInv.nodup, postInv.queueEq, postInv.pLe,
    postInv.sorted, postInv.sound, ?_, ?_, postInv.rootMem⟩
  · intro e he q hq
    exact le_trans (postInv.capBnd e he) (Nat.succ_le_succ (postInv.qLB q hq))
  · intro e he
    have hlogtake :
        ((s.queue.take batchSize).foldl
            (fun st e => process_service (s.queue.take batchSize) st (g e.1))
            { s with queue := s.queue.drop batchSize,
                     maxDepth := max s.maxDepth
                       (((s.queue.take batchSize).map Prod.snd).foldl max 0),
                     fetched := s.fetched ++
                       [(s.iter, (s.queue.take batchSize).map Prod.fst)] }).log.take
          (p + (s.queue.take batchSize).length)
        = s.log.take p ++ s.queue.take batchSize := by
      rw [hext]
      show (s.log ++ ext).take (p + (s.queue.take batchSize).length) = _
      rw [List.take_append_of_le_length hpLe', htake]
    rw [hlogtake] at he
    rw [List.mem_append] at he
    rcases he with he | he
    · apply closureAt_mono adj s _ _ e (good.closure e he)
      intro x hx
      exact postMono x hx
    · exact postClos e he

/-- A completed, never-cancelled run from a good state ends in a good state
whose pop point has reached the end of the log (every logged node fully
expanded, queue drained). -/
theorem bfs_loop_good (adj : String → List String) (roots : List String)
    (g : String → ServiceEntity)
    (hg : ∀ eid, (g eid).entity_id = eid)
    (hadj : ∀ v, (g v).calls = adj v)
    (batchSize : Nat) (hbs : 0 < batchSize)
    (env : Nat → List String → FetchResult)
    (henv : ∀ i ids, env i ids = .ok (ids.map g))
    (cancel : Nat → Bool) (hcan : ∀ n, cancel n = false) :
    ∀ (fuel : Nat) (s : BfsState) (p : Nat), GoodState adj roots s p →
      ∀ (fin : BfsState) (md : Nat),
        bfs_loop batchSize env cancel fuel s = (fin, .completed md) →
        GoodState adj roots fin fin.log.length := by
  intro fuel
  induction fuel with
  | zero =>
    intro s p good fin md hrun
    unfold bfs_loop at hrun
    by_cases hq : s.queue.isEmpty = true
    · rw [if_pos hq] at hrun
      injection hrun with h1 h2
      subst h1
      have hd : s.log.drop p = [] :=
        good.queueEq.symm.trans (List.isEmpty_iff.mp hq)
      have hp : p = s.log.length :=
        le_antisymm good.pLe (List.drop_eq_nil_iff.mp hd)
      exact hp ▸ good
    · rw [if_neg hq] at hrun
      injection hrun with h1 h2
      exact absurd h2 (by intro h; exact BfsOutcome.noConfusion h)
  | succ n ih =>
    intro s p good fin md hrun
    unfold bfs_loop at hrun
    by_cases hq : s.queue.isEmpty = true
    · rw [if_pos hq] at hrun
      injection hrun with h1 h2
      subst h1
      have hd : s.log.drop p = [] :=
        good.queueEq.symm.trans (List.isEmpty_iff.mp hq)
      have hp : p = s.log.length :=
        le_antisymm good.pLe (List.drop_eq_nil_iff.mp hd)
      exact hp ▸ good
    · rw [if_neg hq, hcan s.iter] at hrun
      simp only [Bool.false_eq_true, if_false] at hrun
      by_cases hb : (s.queue.take batchSize).isEmpty = true
      · exfalso
        rcases List.take_eq_nil_iff.mp (List.isEmpty_iff.mp hb) with h | h
        · omega
        · exact hq (by rw [h]; rfl)
      · rw [if_neg hb] at hrun
        have hbne : s.queue.take batchSize ≠ [] := by
          intro h
          exact hb (by rw [h]; rfl)
        exact ih (bfs_step batchSize env s) (p + (s.queue.take batchSize).length)
          (bfs_step_good adj roots g hg hadj batchSize env henv s p good hbne)
          fin md hrun

/-- Invariants of the seeding fold: visited mirrors the log ids without
duplicates, the queue is the whole log, every logged depth is 0, the log only
grows, every truthy processed root ends up logged at depth 0, and every log
entry is inherited or comes from the processed list. -/
theorem seed_fold_good (l : List String) : ∀ (s : BfsState),
    s.visited = s.log.map Prod.fst →
    (s.log.map Prod.fst).Nodup →
    s.queue = s.log →
    (∀ e ∈ s.log, e.2 = 0) →
    ((l.foldl
        (fun s rid =>
          if rid != "" && !(s.visited.contains rid) then
            { s with queue := s.queue ++ [(rid, 0)],
                     visited := s.visited ++ [rid],
                     log := s.log ++ [(rid, 0)] }
          else s) s).visited
      = ((l.foldl
          (fun s rid =>
            if rid != "" && !(s.visited.contains rid) then
              { s with queue := s.queue ++ [(rid, 0)],
                       visited := s.visited ++ [rid],
                       log := s.log ++ [(rid, 0)] }
            else s) s).log.map Prod.fst)) ∧
    (((l.foldl
        (fun s rid =>
          if rid != "" && !(s.visited.contains rid) then
            { s with queue := s.queue ++ [(rid, 0)],
                     visited := s.visited ++ [rid],
                     log := s.log ++ [(rid, 0)] }
          else s) s).log.map Prod.fst).Nodup) ∧
    ((l.foldl
        (fun s rid =>
          if rid != "" && !(s.visited.contains rid) then
            { s with queue := s.queue ++ [(rid, 0)],
                     visited := s.visited ++ [rid],
                     log := s.log ++ [(rid, 0)] }
          else s) s).queue
      = (l.foldl
          (fun s rid =>
            if rid != "" && !(s.visited.contains rid) then
              { s with queue := s.queue ++ [(rid, 0)],
                       visited := s.visited ++ [rid],
                       log := s.log ++ [(rid, 0)] }
            else s) s).log) ∧
    (∀ e ∈ (l.foldl
        (fun s rid =>
          if rid != "" && !(s.visited.contains rid) then
            { s with queue := s.queue ++ [(rid, 0)],
                     visited := s.visited ++ [rid],
                     log := s.log ++ [(rid, 0)] }
          else s) s).log, e.2 = 0) ∧
    (∀ e ∈ s.log, e ∈ (l.foldl
        (fun s rid =>
          if rid != "" && !(s.visited.contains rid) then
            { s with queue := s.queue ++ [(rid, 0)],
                     visited := s.visited ++ [rid],
                     log := s.log ++ [(rid, 0)] }
          else s) s).log) ∧
    (∀ r ∈ l, r ≠ "" → (r, 0) ∈ (l.foldl
        (fun s rid =>
          if rid != "" && !(s.visited.contains rid) then
            { s with queue := s.queue ++ [(rid, 0)],
                     visited := s.visited ++ [rid],
                     log := s.log ++ [(rid, 0)] }
          else s) s).log) ∧
    (∀ e ∈ (l.foldl
        (fun s rid =>
          if rid != "" && !(s.visited.contains rid) then
            { s with queue := s.queue ++ [(rid, 0)],
                     visited := s.visited ++ [rid],
                     log := s.log ++ [(rid, 0)] }
          else s) s).log, e ∈ s.log ∨ e.1 ∈ l) := by
  induction l with
  | nil =>
    intro s h1 h2 h3 h4
    exact ⟨h1, h2, h3, h4, fun e he => he, (by intro r hr; cases hr),
      fun e he => Or.inl he⟩
  | cons r t ih =>
    intro s h1 h2 h3 h4
    rw [List.foldl_cons]
    by_cases hc : (r != "" && !(s.visited.contains r)) = true
    · rw [if_pos hc]
      rw [Bool.and_eq_true, bne_iff_ne, Bool.not_eq_eq_eq_not, Bool.not_true]
        at hc
      have hcont : r ∉ s.log.map Prod.fst := by
        intro hmem
        rw [← h1, ← contains_iff_mem] at hmem
        rw [hmem] at hc
        exact Bool.noConfusion hc.2
      obtain ⟨g1, g2, g3, g4, g5, g6, g7⟩ := ih
        { s with queue := s.queue ++ [(r, 0)], visited := s.visited ++ [r],
                 log := s.log ++ [(r, 0)] }
        (by show s.visited ++ [r] = (s.log ++ [(r, 0)]).map Prod.fst
            simp [h1])
        (nodup_snoc_ids s.log r 0 h2 hcont)
        (by show s.queue ++ [(r, 0)] = s.log ++ [(r, 0)]
            rw [h3])
        (by intro e he
            rw [List.mem_append] at he
            rcases he with he | he
            · exact h4 e he
            · rw [List.mem_singleton] at he
              subst he
              rfl)
      refine ⟨g1, g2, g3, g4, ?_, ?_, ?_⟩
      · intro e he
        exact g5 e (List.mem_append_left _ he)
      · intro x hx hxe
        rcases List.mem_cons.mp hx with hx | hx
        · subst hx
          exact g5 (x, 0) (List.mem_append_right _ (List.mem_singleton.mpr rfl))
        · exact g6 x hx hxe
      · intro e he
        rcases g7 e he with he' | he'
        · rw [List.mem_append] at he'
          rcases he' with he' | he'
          · exact Or.inl he'
          · rw [List.mem_singleton] at he'
            rw [he']
            exact Or.inr (List.mem_cons_self r t)
        · exact Or.inr (List.mem_cons_of_mem r he')
    · rw [if_neg hc]
      obtain ⟨g1, g2, g3, g4, g5, g6, g7⟩ := ih s h1 h2 h3 h4
      refine ⟨g1, g2, g3, g4, g5, ?_, ?_⟩
      · intro x hx hxe
        rcases List.mem_cons.mp hx with hx | hx
        · subst hx
          have hvis : s.visited.contains x = true := by
            by_contra hvf
            apply hc
            rw [Bool.and_eq_true, bne_iff_ne, Bool.not_eq_true']
            exact ⟨hxe, Bool.eq_false_iff.mpr hvf⟩
          rw [contains_iff_mem, h1, List.mem_map] at hvis
          obtain ⟨e, he, hex⟩ := hvis
          have he0 : e.2 = 0 := h4 e he
          have : (x, 0) = e := by
            rw [← hex, ← he0]
          rw [this]
          exact g5 e he
        · exact g6 x hx hxe
      · intro e he
        rcases g7 e he with he' | he'
        · exact Or.inl he'
        · exact Or.inr (List.mem_cons_of_mem r he')

/-- The seeded state is good at pop point 0, provided no root id is the
empty string (a falsy id would be silently dropped by the seeding loop). -/
theorem seed_state_good (adj : String → List String) (roots : List String)
    (hroot : "" ∉ roots) :
    GoodState adj roots (seed_state roots) 0 := by
  obtain ⟨g1, g2, g3, g4, g5, g6, g7⟩ := seed_fold_good roots initState rfl
    List.nodup_nil rfl (by intro e he; cases he)
  refine ⟨g1, g2, ?_, Nat.zero_le _, ?_, ?_, ?_, ?_, ?_⟩
  · rw [List.drop_zero]
    exact g3
  · apply List.pairwise_of_forall_mem_list
    intro a ha b hb
    rw [List.mem_map] at ha hb
    obtain ⟨e, he, hea⟩ := ha
    obtain ⟨f, hf, hfb⟩ := hb
    rw [← hea, ← hfb, g4 e he, g4 f hf]
  · intro e he
    rcases g7 e he with h | h
    · cases h
    · have he0 : e.2 = 0 := g4 e he
      rw [he0]
      exact h
  · intro e he q hq
    rw [g4 e he]
    exact Nat.zero_le _
  · intro e he
    rw [List.take_zero] at he
    cases he
  · intro r hr
    exact g6 r hr (fun heq => hroot (heq ▸ hr))

/-- In a log with duplicate-free ids, the depth associated to an id is
unique. -/
theorem nodup_key_unique (log : List (String × Nat))
    (hn : (log.map Prod.fst).Nodup) (x : String) (a b : Nat)
    (ha : (x, a) ∈ log) (hb : (x, b) ∈ log) : a = b := by
  induction log with
  | nil => cases ha
  | cons h t ih =>
    rw [List.map_cons, List.nodup_cons] at hn
    rcases List.mem_cons.mp ha with ha' | ha'
    · rcases List.mem_cons.mp hb with hb' | hb'
      · rw [← ha'] at hb'
        injection hb' with h1 h2
        exact h2.symm
      · exfalso
        apply hn.1
        rw [← ha']
        show x ∈ t.map Prod.fst
        exact List.mem_map_of_mem Prod.fst hb'
    · rcases List.mem_cons.mp hb with hb' | hb'
      · exfalso
        apply hn.1
        rw [← hb']
        show x ∈ t.map Prod.fst
        exact List.mem_map_of_mem Prod.fst ha'
      · exact ih hn.2 ha' hb'

/-- Completeness: in a fully-expanded good state, every node reachable from
a root in `n` hops is logged at depth at most `n`. -/
theorem reach_logged (adj : String → List String) (roots : List String)
    (fin : BfsState) (good : GoodState adj roots fin fin.log.length) :
    ∀ (n : Nat) (x : String), reachN adj roots n x →
      ∃ d, d ≤ n ∧ (x, d) ∈ fin.log := by
  intro n
  induction n with
  | zero =>
    intro x hx
    exact ⟨0, le_rfl, good.rootMem x hx⟩
  | succ k ih =>
    intro x hx
    obtain ⟨p, hp, hxp⟩ := hx
    obtain ⟨d, hdk, hdmem⟩ := ih p hp
    have hclos : closureAt adj fin (p, d) := by
      apply good.closure
      rw [List.take_length]
      exact hdmem
    obtain ⟨dt, hdt, hle⟩ := hclos x hxp
    exact ⟨dt, by omega, hdt⟩

/-- Claim C3: for every completed BFS run over any finite call graph against
a faithful backend (every batch fetch succeeds and returns exactly the
requested nodes) with no cancellation and truthy root ids, the depth recorded
for each discovered node at enqueue time equals the minimum number of
call-hops from any root id to that node — the recorded depth is attained by
a walk and no shorter walk reaches the node; moreover every reachable node
is discovered. -/
theorem bfs_depth_is_min_hops
    (adj : String → List String) (roots : List String)
    (g : String → ServiceEntity)
    (hg : ∀ eid, (g eid).entity_id = eid)
    (hadj : ∀ v, (g v).calls = adj v)
    (batchSize : Nat) (hbs : 0 < batchSize)
    (env : Nat → List String → FetchResult)
    (henv : ∀ i ids, env i ids = .ok (ids.map g))
    (cancel : Nat → Bool) (hcan : ∀ n, cancel n = false)
    (hroot : "" ∉ roots)
    (fuel : Nat) (fin : BfsState) (md : Nat)
    (hrun : bfs_traverse batchSize env cancel fuel roots = (fin, .completed md)) :
    (∀ x d, (x, d) ∈ fin.log →
      reachN adj roots d x ∧ ∀ m, reachN adj roots m x → d ≤ m) ∧
    (∀ n x, reachN adj roots n x → ∃ d, d ≤ n ∧ (x, d) ∈ fin.log) := by
  unfold bfs_traverse at hrun
  have good := bfs_loop_good adj roots g hg hadj batchSize hbs env henv cancel
    hcan fuel (seed_state roots) 0 (seed_state_good adj roots hroot) fin md hrun
  refine ⟨?_, reach_logged adj roots fin good⟩
  intro x d hmem
  refine ⟨good.sound (x, d) hmem, ?_⟩
  intro m hm
  obtain ⟨d', hd', hmem'⟩ := reach_logged adj roots fin good m x hm
  have := nodup_key_unique fin.log good.nodup x d d' hmem hmem'
  omega

/-- A graph with two walks of different lengths to the same node:
R calls T and A, and A calls T. -/
def diaAdj : String → List String :=
  fun v => if v == "R" then ["T", "A"] else if v == "A" then ["T"] else []

/-- The entities of the two-walk scenario. -/
def diaGraph (eid : String) : ServiceEntity :=
  mkSvc eid (diaAdj eid)

/-- A faithful backend for the two-walk scenario. -/
def diaEnv : Nat → List String → FetchResult :=
  fun _ ids => .ok (ids.map diaGraph)

theorem bfs_depth_is_min_hops_witness :
    ("T", 1) ∈ (bfs_traverse 50 diaEnv neverCancel 3 ["R"]).1.log ∧
    reachN diaAdj ["R"] 1 "T" := by
  refine ⟨by decide, ?_⟩
  exact ((bfs_depth_is_min_hops diaAdj ["R"] diaGraph (fun _ => rfl)
    (fun _ => rfl) 50 (by decide) diaEnv (fun _ _ => rfl) neverCancel
    (fun _ => rfl) (by decide) 3 (bfs_traverse 50 diaEnv neverCancel 3 ["R"]).1
    1 rfl).1 "T" 1 (by decide)).1
